import Mathlib

/-!
# Merge rules of the tensor-algebra lowering pass (`src/lower/merge_rule.cpp`)

A shallow embedding of `MergeRule::make`, `MergeRule::getSteps`, `simplify` and the two
stream operators.

Conventions of the embedding.

* A `MergeRuleNode` lives on the C++ heap and `set<MergeRule>` compares the node
  *addresses*.  Every node of the embedding therefore carries its address in the
  field `ptr`; the allocator is a counter `heap` (the next free address), threaded
  through every function that executes `new`.
* `MergeRule` is a possibly-null pointer: `Option MergeRuleNode`, `none` being the
  undefined rule `MergeRule()`.
* A run that the C++ program does not survive (indexing `getLevels()` out of range,
  a failed `util::locate`, dereferencing a null rule) is the outer `none` of an
  `Option` result.
* The operands of `And` and `Or` are nodes: all three call sites of `And::make` and
  `Or::make` in the file pass defined rules (lines 93-94, 108-109, 251-252), so the
  model of the two constructors reports an undefined operand as a run outside the
  model; `createOrRule_ne_none`, `createAndRule_ne_none` and `andRule_ne_none` show
  that no call site gets there.
* The counter never hands out an address twice.  The C++ allocator may reuse the
  address of a node that was freed, but the only addresses ever looked up are those
  held by `denseRules`, and the set keeps its nodes alive.
-/

set_option autoImplicit false

namespace taco

/-! ## External collaborators (`format.h`, `expr.h`, `lower/iteration_schedule.h`) -/

/-- Modelled from the spec: the index variable `Var` of `expr.h`; the source only
compares index variables for equality. -/
structure Var where
  name : String
  deriving DecidableEq, Repr

/-- Modelled from the spec: the level-type tag `LevelType` of `format.h`, a closed
set containing at least `Dense` and `Sparse`; the source only tests for
`LevelType::Dense`, so `Fixed` stands for every further tag. -/
inductive LevelType where
  | Dense
  | Sparse
  | Fixed
  deriving DecidableEq, Repr

/-- Modelled from the spec: one `Level` of a format, carrying its level type
(`getType()`). -/
structure Level where
  type : LevelType
  deriving DecidableEq, Repr

/-- Modelled from the spec: a `Format` is the ordered list of its levels
(`getLevels()`). -/
structure Format where
  levels : List Level
  deriving DecidableEq, Repr

/-- Modelled from the spec: a tensor with its storage format (`getFormat()`). -/
structure Tensor where
  name : String
  format : Format
  deriving DecidableEq, Repr

/-- Index expressions (`expr_nodes.h`): the five node kinds for which
`ComputeMergeRule` overrides `visit`, and `Other` for a node of any further kind,
of which only a tag is kept. -/
inductive Expr where
  | Read (tensor : Tensor) (indexVars : List Var)
  | Add (a b : Expr)
  | Sub (a b : Expr)
  | Mul (a b : Expr)
  | Div (a b : Expr)
  | Other (kind : Nat)
  deriving DecidableEq, Repr

/-- Modelled from the spec: a `TensorPath` is the ordered sequence of steps of one
tensor, keyed by the sequence `vars` of index variables (`getTensor()`, `getVariables()`). -/
structure TensorPath where
  tensor : Tensor
  vars : List Var
  deriving DecidableEq, Repr

/-- Modelled from the spec: a `TensorPathStep` identifies one storage level of one
tensor path (`getPath()`, `getStep()`). -/
structure TensorPathStep where
  path : TensorPath
  step : Nat
  deriving DecidableEq, Repr

/-- Modelled from the spec: `TensorPath::getStep(i)`, the step of the path at
position `i`. -/
def TensorPath.getStep (path : TensorPath) (i : Nat) : TensorPathStep :=
  { path := path, step := i }

/-- Modelled from the spec: the iteration schedule resolves the tensor path of a
read node (`IterationSchedule::getTensorPath`). -/
structure IterationSchedule where
  getTensorPath : Expr → TensorPath

namespace util

/-- Modelled from the spec: `util::contains` of `util/collections.h` on a vector. -/
def contains (xs : List Var) (x : Var) : Bool :=
  decide (x ∈ xs)

/-- Modelled from the spec: `util::locate` of `util/collections.h`, the position of
the first occurrence of `x`; a value that cannot be located is an internal
invariant violation, which ends the run. -/
def locate : List Var → Var → Option Nat
  | [], _ => none
  | y :: ys, x => if y = x then some 0 else (locate ys x).map (· + 1)

end util

/-- The level type a step resolves to, as `SimplifyVisitor::visit(const Step*)`
computes it (lines 239-241):
`step.getPath().getTensor().getFormat().getLevels()[step.getStep()].getType()`.
Indexing past the end of the level vector ends the run. -/
def TensorPathStep.levelType (s : TensorPathStep) : Option LevelType :=
  (s.path.tensor.format.levels.get? s.step).map Level.type

/-! ## The merge-rule tree -/

/-- The three node kinds of `merge_rule.h`, each with the address `ptr` of the heap
object and the originating expression `expr`. -/
inductive MergeRuleNode where
  | Step (ptr : Nat) (step : TensorPathStep) (expr : Expr)
  | And (ptr : Nat) (a b : MergeRuleNode) (expr : Expr)
  | Or (ptr : Nat) (a b : MergeRuleNode) (expr : Expr)
  deriving DecidableEq, Repr

/-- A `MergeRule` is an intrusive pointer to a node, or undefined. -/
abbrev MergeRule := Option MergeRuleNode

/-- The address a rule points to. -/
def MergeRuleNode.ptr : MergeRuleNode → Nat
  | .Step p _ _ => p
  | .And p _ _ _ => p
  | .Or p _ _ _ => p

/-- The expression of a defined rule, `MergeRule::getExpr` (line 153). -/
def MergeRuleNode.getExpr : MergeRuleNode → Expr
  | .Step _ _ e => e
  | .And _ _ _ e => e
  | .Or _ _ _ e => e

/-- Whether the rule points to a node, `MergeRule::defined()`. -/
def MergeRule.defined (r : MergeRule) : Bool :=
  r.isSome

/-- The constructor `Step::make` (lines 168-173): a fresh `Step` node at the next free address. -/
def Step.make (step : TensorPathStep) (expr : Expr) (heap : Nat) : MergeRule × Nat :=
  (some (.Step heap step expr), heap + 1)

/-- The constructor `And::make` (lines 181-187): a fresh `And` node at the next free address. -/
def And.make (a b : MergeRule) (expr : Expr) (heap : Nat) : Option (MergeRule × Nat) :=
  match a, b with
  | some x, some y => some (some (.And heap x y expr), heap + 1)
  | _, _ => none

/-- The constructor `Or::make` (lines 195-201): a fresh `Or` node at the next free address. -/
def Or.make (a b : MergeRule) (expr : Expr) (heap : Nat) : Option (MergeRule × Nat) :=
  match a, b with
  | some x, some y => some (some (.Or heap x y expr), heap + 1)
  | _, _ => none

/-! ## `MergeRule::make` (lines 58-138) -/

/-- The mutable part of the local visitor `ComputeMergeRule`: its member
`mergeRule`, together with the allocator state. -/
structure ComputeMergeRule where
  mergeRule : MergeRule
  heap : Nat
  deriving DecidableEq, Repr

namespace ComputeMergeRule

/-- The body of `createOrRule` after its two calls of `computeMergeRule`
(lines 93-102); in the last case the member `mergeRule` is not assigned. -/
def createOrRule (a b : MergeRule) (node : Expr) (s : ComputeMergeRule) : Option ComputeMergeRule :=
  if a.defined && b.defined then
    (Or.make a b node s.heap).map fun (r, h) => { mergeRule := r, heap := h }
  else if a.defined then
    some { s with mergeRule := a }
  else if b.defined then
    some { s with mergeRule := b }
  else
    some s

/-- The body of `createAndRule` after its two calls of `computeMergeRule`
(lines 108-117); in the last case the member `mergeRule` is not assigned. -/
def createAndRule (a b : MergeRule) (node : Expr) (s : ComputeMergeRule) : Option ComputeMergeRule :=
  if a.defined && b.defined then
    (And.make a b node s.heap).map fun (r, h) => { mergeRule := r, heap := h }
  else if a.defined then
    some { s with mergeRule := a }
  else if b.defined then
    some { s with mergeRule := b }
  else
    some s

/-- The tail of `computeMergeRule` (lines 73-75): read the member, reset it, return
what was read. -/
def takeRule (s : ComputeMergeRule) : MergeRule × ComputeMergeRule :=
  (s.mergeRule, { s with mergeRule := none })

/-- Modelled from the spec: the `visit` overload a node of another kind reaches is
the one `ComputeMergeRule` inherits through `using ExprVisitor::visit` (line 61),
whose body is in `expr_visitor.h`.  By sections 4.3 and 7 of the spec a node kind
other than read, additive and multiplicative is rejected with a diagnostic, which is
fatal to the pass: the run ends. -/
def unsupported : Option ComputeMergeRule :=
  none

/-- The call `expr.accept(this)`: the `visit` overloads of `ComputeMergeRule`
(lines 78-134), with `computeMergeRule` (lines 71-76) unfolded at its two call
sites in `createOrRule` and `createAndRule`. -/
def visit (indexVar : Var) (schedule : IterationSchedule) :
    Expr → ComputeMergeRule → Option ComputeMergeRule
  | .Read tensor indexVars, s =>
    if !util.contains indexVars indexVar then
      some { s with mergeRule := none }
    else
      let path := schedule.getTensorPath (.Read tensor indexVars)
      match util.locate path.vars indexVar with
      | none => none
      | some i =>
        let (r, h) := Step.make (path.getStep i) (.Read tensor indexVars) s.heap
        some { mergeRule := r, heap := h }
  | .Add a b, s =>
    match visit indexVar schedule a s with
    | none => none
    | some s1 =>
      match visit indexVar schedule b (takeRule s1).2 with
      | none => none
      | some s2 => createOrRule (takeRule s1).1 (takeRule s2).1 (.Add a b) (takeRule s2).2
  | .Sub a b, s =>
    match visit indexVar schedule a s with
    | none => none
    | some s1 =>
      match visit indexVar schedule b (takeRule s1).2 with
      | none => none
      | some s2 => createOrRule (takeRule s1).1 (takeRule s2).1 (.Sub a b) (takeRule s2).2
  | .Mul a b, s =>
    match visit indexVar schedule a s with
    | none => none
    | some s1 =>
      match visit indexVar schedule b (takeRule s1).2 with
      | none => none
      | some s2 => createAndRule (takeRule s1).1 (takeRule s2).1 (.Mul a b) (takeRule s2).2
  | .Div a b, s =>
    match visit indexVar schedule a s with
    | none => none
    | some s1 =>
      match visit indexVar schedule b (takeRule s1).2 with
      | none => none
      | some s2 => createAndRule (takeRule s1).1 (takeRule s2).1 (.Div a b) (takeRule s2).2
  | .Other _, _ => unsupported

/-- The method `ComputeMergeRule::computeMergeRule` (lines 71-76). -/
def computeMergeRule (indexVar : Var) (schedule : IterationSchedule) (expr : Expr)
    (s : ComputeMergeRule) : Option (MergeRule × ComputeMergeRule) :=
  (visit indexVar schedule expr s).map takeRule

/-- Modelled from the spec: the sub-expression the diagnostic of a rejected run
names, `none` when the run is not rejected.  The diagnostic is raised at the first
node of another kind the visit reaches (section 7 of the spec: the diagnostic
identifies the offending sub-expression). -/
def diagnostic (indexVar : Var) (schedule : IterationSchedule) :
    Expr → ComputeMergeRule → Option Expr
  | .Read _ _, _ => none
  | .Add a b, s =>
    match visit indexVar schedule a s with
    | none => diagnostic indexVar schedule a s
    | some s1 => diagnostic indexVar schedule b (takeRule s1).2
  | .Sub a b, s =>
    match visit indexVar schedule a s with
    | none => diagnostic indexVar schedule a s
    | some s1 => diagnostic indexVar schedule b (takeRule s1).2
  | .Mul a b, s =>
    match visit indexVar schedule a s with
    | none => diagnostic indexVar schedule a s
    | some s1 => diagnostic indexVar schedule b (takeRule s1).2
  | .Div a b, s =>
    match visit indexVar schedule a s with
    | none => diagnostic indexVar schedule a s
    | some s1 => diagnostic indexVar schedule b (takeRule s1).2
  | .Other kind, _ => some (.Other kind)

end ComputeMergeRule

/-- The function `MergeRule::make` (line 137): a fresh visitor, whose member
`mergeRule` is default-constructed, runs `computeMergeRule` on the expression.  The
result is the rule together with the allocator state after the call. -/
def MergeRule.make (indexExpr : Expr) (indexVar : Var) (schedule : IterationSchedule)
    (heap : Nat) : Option (MergeRule × Nat) :=
  (ComputeMergeRule.computeMergeRule indexVar schedule indexExpr
      { mergeRule := none, heap := heap }).map fun (r, s) => (r, s.heap)

/-! ## `MergeRule::getSteps` (lines 140-151) -/

namespace GetPathsVisitor

/-- The local visitor `GetPathsVisitor`, acting on its member `steps`: `visit` of a
`Step` is overridden to `push_back` the step (lines 144-146), `visit` of `And` and
`Or` are the defaults of `MergeRuleVisitor` (lines 215-223), which accept the left
operand and then the right one. -/
def visit : MergeRuleNode → List TensorPathStep → List TensorPathStep
  | .Step _ step _, steps => steps ++ [step]
  | .And _ a b _, steps => visit b (visit a steps)
  | .Or _ a b _, steps => visit b (visit a steps)

end GetPathsVisitor

/-- The method `MergeRule::getSteps` (lines 140-151): a fresh visitor accepts the rule and its
`steps` are returned; `accept` dereferences the pointer (line 158), so an undefined
rule ends the run. -/
def MergeRule.getSteps (rule : MergeRule) : Option (List TensorPathStep) :=
  match rule with
  | none => none
  | some n => some (GetPathsVisitor.visit n [])

/-! ## Printing (lines 24-47 and 161-164) -/

namespace MergeRulePrinter

/-- The local visitor `MergeRulePrinter`, acting on the text already written to its
stream `os` (lines 30-42).  The text of a step, `os << rule->step`, is written by
the `operator<<` of `TensorPathStep`, which is not in this file: it is the
parameter `stepText`. -/
def visit (stepText : TensorPathStep → String) : MergeRuleNode → String → String
  | .Step _ step _, os => os ++ stepText step
  | .And _ a b _, os => visit stepText b (visit stepText a os ++ " ∧ ")
  | .Or _ a b _, os => visit stepText b (visit stepText a os ++ " ∨ ")

end MergeRulePrinter

/-- The stream operator of `MergeRuleNode` (lines 24-47): a fresh printer on the
stream accepts the node. -/
def MergeRuleNode.print (stepText : TensorPathStep → String) (node : MergeRuleNode)
    (os : String) : String :=
  MergeRulePrinter.visit stepText node os

/-- The stream operator of `MergeRule` (lines 161-164). -/
def MergeRule.print (stepText : TensorPathStep → String) (mergeRule : MergeRule)
    (os : String) : String :=
  match mergeRule with
  | none => os ++ "MergeRule()"
  | some node => node.print stepText os

/-- The text a rule is rendered to on an empty stream. -/
def MergeRule.render (stepText : TensorPathStep → String) (mergeRule : MergeRule) : String :=
  mergeRule.print stepText ""

/-! ## `simplify` (lines 225-268) -/

/-- The mutable part of the local visitor `SimplifyVisitor`: the members
`denseRules` (a `set<MergeRule>`, ordered by node address, kept as the list of the
addresses it holds) and `mergeRule`, together with the allocator state. -/
structure SimplifyVisitor where
  denseRules : List Nat
  mergeRule : MergeRule
  heap : Nat
  deriving DecidableEq, Repr

namespace SimplifyVisitor

/-- The test `util::contains(denseRules, r)`: the set holds the address `r` points to.  Only
`this` pointers of `Step` nodes are ever inserted, so a null rule is not found. -/
def contains (denseRules : List Nat) (r : MergeRule) : Bool :=
  match r with
  | none => false
  | some n => decide (n.ptr ∈ denseRules)

/-- The tail of the local `simplify` (lines 233-235): read the member, reset it,
return what was read. -/
def takeRule (s : SimplifyVisitor) : MergeRule × SimplifyVisitor :=
  (s.mergeRule, { s with mergeRule := none })

/-- The body of `visit(const And*)` after its two calls of `simplify`
(lines 251-259). -/
def andRule (a b : MergeRule) (expr : Expr) (s : SimplifyVisitor) : Option SimplifyVisitor :=
  if contains s.denseRules a && contains s.denseRules b then
    (And.make a b expr s.heap).map fun (r, h) => { s with mergeRule := r, heap := h }
  else if contains s.denseRules b then
    some { s with mergeRule := a }
  else
    some { s with mergeRule := b }

/-- The call `rule.accept(this)`: the three `visit` overrides of `SimplifyVisitor`
(lines 238-265), with the local `simplify` (lines 231-236) unfolded at its two call
sites in `visit(const And*)`. -/
def visit : MergeRuleNode → SimplifyVisitor → Option SimplifyVisitor
  | .Step p step expr, s =>
    match step.levelType with
    | none => none
    | some t =>
      some { s with
        denseRules := if t = LevelType.Dense then s.denseRules.insert p else s.denseRules
        mergeRule := some (.Step p step expr) }
  | .And _ a b expr, s =>
    match visit a s with
    | none => none
    | some s1 =>
      match visit b (takeRule s1).2 with
      | none => none
      | some s2 => andRule (takeRule s1).1 (takeRule s2).1 expr (takeRule s2).2
  | .Or p a b expr, s =>
    some { s with mergeRule := some (.Or p a b expr) }

/-- The local `SimplifyVisitor::simplify` (lines 231-236); `accept` dereferences
the pointer, so an undefined rule ends the run. -/
def simplify (rule : MergeRule) (s : SimplifyVisitor) : Option (MergeRule × SimplifyVisitor) :=
  match rule with
  | none => none
  | some n => (visit n s).map takeRule

end SimplifyVisitor

/-- The function `simplify` (line 267): a fresh visitor, with an empty `denseRules`
and a default-constructed `mergeRule`, simplifies the rule.  The result is the rule
together with the allocator state after the call. -/
def simplify (rule : MergeRule) (heap : Nat) : Option (MergeRule × Nat) :=
  (SimplifyVisitor.simplify rule { denseRules := [], mergeRule := none, heap := heap }).map
    fun (r, s) => (r, s.heap)

end taco

namespace taco

/-! ## Reading a rule -/

/-- The path steps of the `Step` leaves of a rule, left to right, depth first. -/
def MergeRuleNode.stepLeaves : MergeRuleNode → List TensorPathStep
  | .Step _ step _ => [step]
  | .And _ a b _ => a.stepLeaves ++ b.stepLeaves
  | .Or _ a b _ => a.stepLeaves ++ b.stepLeaves

/-- The number of `Step` leaves of a rule. -/
def MergeRuleNode.numStepLeaves : MergeRuleNode → Nat
  | .Step _ _ _ => 1
  | .And _ a b _ => a.numStepLeaves + b.numStepLeaves
  | .Or _ a b _ => a.numStepLeaves + b.numStepLeaves

/-- Every node of the graph a rule points to: the node itself and the nodes
below it. -/
def MergeRuleNode.nodes : MergeRuleNode → List MergeRuleNode
  | .Step p step e => [.Step p step e]
  | .And p a b e => .And p a b e :: (a.nodes ++ b.nodes)
  | .Or p a b e => .Or p a b e :: (a.nodes ++ b.nodes)

/-- The rule is a graph of live heap objects while the allocator is in state
`heap`: two nodes at one address are one object (a node may be shared, so an
address may occur more than once), and every address was handed out before
`heap`. -/
def MergeRuleNode.onHeap (r : MergeRuleNode) (heap : Nat) : Prop :=
  (∀ x ∈ r.nodes, ∀ y ∈ r.nodes, x.ptr = y.ptr → x = y) ∧ ∀ x ∈ r.nodes, x.ptr < heap

/-- The node is a `Step` whose level type, resolved as in lines 239-241, is
`Dense`. -/
def MergeRuleNode.isDenseStep : MergeRuleNode → Bool
  | .Step _ step _ => decide (step.levelType = some LevelType.Dense)
  | .And _ _ _ _ => false
  | .Or _ _ _ _ => false

/-- The simplifier without its set of addresses: `Step` and `Or` roots are returned
as they are, and an `And` tests whether its two simplified operands are dense
steps where `visit(const And*)` looks them up in `denseRules`. -/
def simplifyStructural : MergeRuleNode → Nat → Option (MergeRuleNode × Nat)
  | .Step p step e, h =>
    match step.levelType with
    | none => none
    | some _ => some (.Step p step e, h)
  | .And _ a b e, h =>
    match simplifyStructural a h with
    | none => none
    | some (a', h1) =>
      match simplifyStructural b h1 with
      | none => none
      | some (b', h2) =>
        if a'.isDenseStep && b'.isDenseStep then some (.And h2 a' b' e, h2 + 1)
        else if b'.isDenseStep then some (a', h2)
        else some (b', h2)
  | .Or p a b e, h => some (.Or p a b e, h)

/-- The structure of a rule: node kinds, path steps and expressions, without the
addresses. -/
inductive RuleShape where
  | Step (step : TensorPathStep) (expr : Expr)
  | And (a b : RuleShape) (expr : Expr)
  | Or (a b : RuleShape) (expr : Expr)
  deriving DecidableEq, Repr

/-- The structure of the rule rooted at a node. -/
def MergeRuleNode.shape : MergeRuleNode → RuleShape
  | .Step _ step e => .Step step e
  | .And _ a b e => .And a.shape b.shape e
  | .Or _ a b e => .Or a.shape b.shape e

/-- Every step a run of the simplifier on the rule looks up has a level: the leaves
reached through `And` nodes only, for the visitor does not descend below an `Or`. -/
def MergeRuleNode.levelsInRange : MergeRuleNode → Prop
  | .Step _ step _ => step.levelType ≠ none
  | .And _ a b _ => a.levelsInRange ∧ b.levelsInRange
  | .Or _ _ _ _ => True

instance MergeRuleNode.decidableOnHeap (r : MergeRuleNode) (heap : Nat) :
    Decidable (r.onHeap heap) := by
  unfold MergeRuleNode.onHeap
  infer_instance

/-- Whether every step the simplifier looks up has a level can be computed. -/
def MergeRuleNode.decidableLevelsInRange : (r : MergeRuleNode) → Decidable r.levelsInRange
  | .Step _ step _ => inferInstanceAs (Decidable (step.levelType ≠ none))
  | .And _ a b _ =>
    @instDecidableAnd _ _ a.decidableLevelsInRange b.decidableLevelsInRange
  | .Or _ _ _ _ => isTrue trivial

instance (r : MergeRuleNode) : Decidable r.levelsInRange := r.decidableLevelsInRange

/-- The lookups in `denseRules` a run of the simplifier performs (lines 251 and
254): for every `And` node whose two operands were simplified, in the order of the
visits, the set at the time of the lookup paired with the simplified left operand
and then with the simplified right operand. -/
def SimplifyVisitor.lookups : MergeRuleNode → SimplifyVisitor → List (List Nat × MergeRule)
  | .Step _ _ _, _ => []
  | .Or _ _ _ _, _ => []
  | .And _ a b _, s =>
    lookups a s ++
      match visit a s with
      | none => []
      | some s1 =>
        lookups b (takeRule s1).2 ++
          match visit b (takeRule s1).2 with
          | none => []
          | some s2 =>
            [((takeRule s2).2.denseRules, (takeRule s1).1),
             ((takeRule s2).2.denseRules, (takeRule s2).1)]

/-- The rule contains an `Or` node. -/
def MergeRuleNode.hasOr : MergeRuleNode → Bool
  | .Step _ _ _ => false
  | .And _ a b _ => a.hasOr || b.hasOr
  | .Or _ _ _ _ => true

/-! ## Reading an expression -/

/-- The read leaves of an expression, left to right. -/
def Expr.readLeaves : Expr → List Expr
  | .Read tensor indexVars => [.Read tensor indexVars]
  | .Add a b => a.readLeaves ++ b.readLeaves
  | .Sub a b => a.readLeaves ++ b.readLeaves
  | .Mul a b => a.readLeaves ++ b.readLeaves
  | .Div a b => a.readLeaves ++ b.readLeaves
  | .Other _ => []

/-- The sub-expressions of an expression, the expression itself included. -/
def Expr.subExprs : Expr → List Expr
  | .Read tensor indexVars => [.Read tensor indexVars]
  | .Add a b => .Add a b :: (a.subExprs ++ b.subExprs)
  | .Sub a b => .Sub a b :: (a.subExprs ++ b.subExprs)
  | .Mul a b => .Mul a b :: (a.subExprs ++ b.subExprs)
  | .Div a b => .Div a b :: (a.subExprs ++ b.subExprs)
  | .Other kind => [.Other kind]

/-- The expression is made of read leaves and `Add`, `Sub`, `Mul`, `Div` nodes
only. -/
def Expr.supported : Expr → Bool
  | .Read _ _ => true
  | .Add a b => a.supported && b.supported
  | .Sub a b => a.supported && b.supported
  | .Mul a b => a.supported && b.supported
  | .Div a b => a.supported && b.supported
  | .Other _ => false

/-- The expression is a read leaf indexed, among others, by the variable. -/
def Expr.indexedBy (v : Var) : Expr → Bool
  | .Read _ indexVars => util.contains indexVars v
  | _ => false

/-- The step the schedule resolves for a read and a variable: the step of the
read's tensor path at the position of the variable in the path's variables. -/
def IterationSchedule.stepOf (schedule : IterationSchedule) (v : Var) (read : Expr) :
    TensorPathStep :=
  (schedule.getTensorPath read).getStep ((schedule.getTensorPath read).vars.indexOf v)

/-- The schedule is consistent with the expression for the variable: the tensor
path of every read leaf the variable indexes lists the variable. -/
def IterationSchedule.covers (schedule : IterationSchedule) (v : Var) (e : Expr) : Prop :=
  ∀ read ∈ e.readLeaves, read.indexedBy v = true → v ∈ (schedule.getTensorPath read).vars

instance (schedule : IterationSchedule) (v : Var) (e : Expr) :
    Decidable (schedule.covers v e) := by
  unfold IterationSchedule.covers
  infer_instance

/-- The path steps of the leaves of a possibly undefined rule. -/
def MergeRule.stepLeaves (r : MergeRule) : List TensorPathStep :=
  match r with
  | none => []
  | some n => n.stepLeaves

/-- The expression a node carries is of the kind the node is derived from: a
`Step` carries a read the variable indexes, an `Or` an additive node, an `And` a
multiplicative node. -/
def MergeRuleNode.carriesItsKind (v : Var) : MergeRuleNode → Prop
  | .Step _ _ expr => ∃ t iv, expr = .Read t iv ∧ v ∈ iv
  | .And _ _ _ expr => ∃ a b, expr = .Mul a b ∨ expr = .Div a b
  | .Or _ _ _ expr => ∃ a b, expr = .Add a b ∨ expr = .Sub a b

/-! ## Concrete tensors, used to instantiate the theorems -/

/-- The index variable `i`. -/
def exI : Var := ⟨"i"⟩

/-- The index variable `j`. -/
def exJ : Var := ⟨"j"⟩

/-- A vector `A` whose only level is dense. -/
def exA : Tensor := ⟨"A", ⟨[⟨LevelType.Dense⟩]⟩⟩

/-- A vector `B` whose only level is sparse. -/
def exB : Tensor := ⟨"B", ⟨[⟨LevelType.Sparse⟩]⟩⟩

/-- A vector `C` whose only level is sparse. -/
def exC : Tensor := ⟨"C", ⟨[⟨LevelType.Sparse⟩]⟩⟩

/-- A schedule whose tensor path of a read visits the read's index variables in
the order they are written. -/
def exSchedule : IterationSchedule :=
  ⟨fun e => match e with
    | .Read t vs => ⟨t, vs⟩
    | _ => ⟨exA, []⟩⟩

/-- The read `A(i)`. -/
def exReadA : Expr := .Read exA [exI]

/-- The read `B(i)`. -/
def exReadB : Expr := .Read exB [exI]

/-- The read `C(i)`. -/
def exReadC : Expr := .Read exC [exI]

/-- The read `B(j)`, which the variable `i` does not index. -/
def exReadBj : Expr := .Read exB [exJ]

/-- The step `A@0`. -/
def exStepA : TensorPathStep := ⟨⟨exA, [exI]⟩, 0⟩

/-- The step `B@0`. -/
def exStepB : TensorPathStep := ⟨⟨exB, [exI]⟩, 0⟩

/-- The step `C@0`. -/
def exStepC : TensorPathStep := ⟨⟨exC, [exI]⟩, 0⟩

/-- The rule built for `A(i) * B(i)`: dense on the left, sparse on the right. -/
def exAndAB : MergeRuleNode :=
  .And 2 (.Step 0 exStepA exReadA) (.Step 1 exStepB exReadB) (.Mul exReadA exReadB)

/-- The rule built for `B(i) * A(i)`: sparse on the left, dense on the right. -/
def exAndBA : MergeRuleNode :=
  .And 2 (.Step 0 exStepB exReadB) (.Step 1 exStepA exReadA) (.Mul exReadB exReadA)

/-- The rule built for `A(i) * A(i)`: dense on both sides. -/
def exAndAA : MergeRuleNode :=
  .And 2 (.Step 0 exStepA exReadA) (.Step 1 exStepA exReadA) (.Mul exReadA exReadA)

/-- The rule built for `B(i) * C(i)`: sparse on both sides. -/
def exAndBC : MergeRuleNode :=
  .And 2 (.Step 0 exStepB exReadB) (.Step 1 exStepC exReadC) (.Mul exReadB exReadC)

/-- The expression `A(i) * A(i)`, which reads the same tensor twice. -/
def exSquare : Expr := .Mul exReadA exReadA

/-- The expression `(A(i) + B(j)) * C(i)`, one of whose reads the variable `i`
does not index. -/
def exMixed : Expr := .Mul (.Add exReadA exReadBj) exReadC

/-- The rule built for `(A(i) + B(j)) * C(i)` and the variable `i`. -/
def exAndAC : MergeRuleNode :=
  .And 2 (.Step 0 exStepA exReadA) (.Step 1 exStepC exReadC) exMixed

/-- The rule built for `(A(i) * A(i)) * B(i)`: an `And` of two dense steps on
the left, a sparse step on the right. -/
def exAndAAB : MergeRuleNode :=
  .And 4 (.And 2 (.Step 0 exStepA exReadA) (.Step 1 exStepA exReadA) exSquare)
    (.Step 3 exStepB exReadB) (.Mul exSquare exReadB)

/-- The rule built for `(A(i) * A(i)) * A(i)`: three dense steps, nested on the
left. -/
def exAndAA_A : MergeRuleNode :=
  .And 4 (.And 2 (.Step 0 exStepA exReadA) (.Step 1 exStepA exReadA) exSquare)
    (.Step 3 exStepA exReadA) (.Mul exSquare exReadA)

/-- The rule built for `A(i) * (A(i) * A(i))`: three dense steps, nested on the
right. -/
def exAndA_AA : MergeRuleNode :=
  .And 4 (.Step 0 exStepA exReadA)
    (.And 3 (.Step 1 exStepA exReadA) (.Step 2 exStepA exReadA) exSquare)
    (.Mul exReadA exSquare)

end taco

namespace taco

/-! ## The builder -/

theorem util.locate_eq_indexOf (xs : List Var) (x : Var) (h : x ∈ xs) :
    util.locate xs x = some (xs.indexOf x) := by
  induction xs with
  | nil => simp at h
  | cons y ys ih =>
    by_cases hy : y = x
    · subst hy
      simp [util.locate]
    · have hx : x ∈ ys := by
        rcases List.mem_cons.mp h with h1 | h1
        · exact absurd h1.symm hy
        · exact h1
      have hne : ¬ x = y := fun h1 => hy h1.symm
      simp [util.locate, hy, ih hx, List.indexOf_cons_ne _ hy]

theorem ComputeMergeRule.createOrRule_ne_none (a b : MergeRule) (node : Expr)
    (s : ComputeMergeRule) : ComputeMergeRule.createOrRule a b node s ≠ none := by
  cases a <;> cases b <;> simp [ComputeMergeRule.createOrRule, MergeRule.defined, Or.make]

theorem ComputeMergeRule.createAndRule_ne_none (a b : MergeRule) (node : Expr)
    (s : ComputeMergeRule) : ComputeMergeRule.createAndRule a b node s ≠ none := by
  cases a <;> cases b <;> simp [ComputeMergeRule.createAndRule, MergeRule.defined, And.make]

theorem SimplifyVisitor.andRule_ne_none (a b : MergeRule) (expr : Expr)
    (s : SimplifyVisitor) : SimplifyVisitor.andRule a b expr s ≠ none := by
  cases a <;> cases b <;>
    simp only [SimplifyVisitor.andRule, SimplifyVisitor.contains, And.make] <;>
    split_ifs <;> simp_all

/-- The member `mergeRule` a visit starts from has no influence on the visit. -/
theorem ComputeMergeRule.visit_stale (v : Var) (sch : IterationSchedule) (e : Expr)
    (stale : MergeRule) (h : Nat) :
    ComputeMergeRule.visit v sch e ⟨stale, h⟩ = ComputeMergeRule.visit v sch e ⟨none, h⟩ := by
  cases e with
  | Read t vs => simp [ComputeMergeRule.visit]
  | Add a b => simp only [ComputeMergeRule.visit]; rw [ComputeMergeRule.visit_stale v sch a stale h]
  | Sub a b => simp only [ComputeMergeRule.visit]; rw [ComputeMergeRule.visit_stale v sch a stale h]
  | Mul a b => simp only [ComputeMergeRule.visit]; rw [ComputeMergeRule.visit_stale v sch a stale h]
  | Div a b => simp only [ComputeMergeRule.visit]; rw [ComputeMergeRule.visit_stale v sch a stale h]
  | Other k => simp only [ComputeMergeRule.visit]

/-- The state `computeMergeRule` leaves behind has its member `mergeRule` reset. -/
theorem ComputeMergeRule.computeMergeRule_eq_make (v : Var) (sch : IterationSchedule)
    (e : Expr) (stale : MergeRule) (h : Nat) :
    ComputeMergeRule.computeMergeRule v sch e ⟨stale, h⟩ =
      (MergeRule.make e v sch h).map fun (r, h') => (r, ⟨none, h'⟩) := by
  simp only [MergeRule.make, ComputeMergeRule.computeMergeRule,
    ComputeMergeRule.visit_stale v sch e stale h]
  cases ComputeMergeRule.visit v sch e ⟨none, h⟩ <;> simp [ComputeMergeRule.takeRule]

/-- How `visit` of a binary node unfolds into two runs of `MergeRule.make`. -/
theorem ComputeMergeRule.visit_binary (v : Var) (sch : IterationSchedule) (a b : Expr)
    (h h1 h2 : Nat) (ra rb : MergeRule)
    (ha : MergeRule.make a v sch h = some (ra, h1))
    (hb : MergeRule.make b v sch h1 = some (rb, h2)) :
    ∃ s1 s2, ComputeMergeRule.visit v sch a ⟨none, h⟩ = some s1 ∧
      ComputeMergeRule.takeRule s1 = (ra, ⟨none, h1⟩) ∧
      ComputeMergeRule.visit v sch b ⟨none, h1⟩ = some s2 ∧
      ComputeMergeRule.takeRule s2 = (rb, ⟨none, h2⟩) := by
  simp only [MergeRule.make, ComputeMergeRule.computeMergeRule, Option.map_map,
    Option.map_eq_some', Function.comp] at ha hb
  obtain ⟨s1, hs1, e1⟩ := ha
  obtain ⟨s2, hs2, e2⟩ := hb
  refine ⟨s1, s2, hs1, ?_, hs2, ?_⟩
  · simp only [ComputeMergeRule.takeRule, Prod.mk.injEq] at e1 ⊢
    obtain ⟨e11, e12⟩ := e1
    simp [e11, e12]
  · simp only [ComputeMergeRule.takeRule, Prod.mk.injEq] at e2 ⊢
    obtain ⟨e21, e22⟩ := e2
    simp [e21, e22]

theorem MergeRule.make_Add (v : Var) (sch : IterationSchedule) (a b : Expr)
    (h h1 h2 : Nat) (ra rb : MergeRule)
    (ha : MergeRule.make a v sch h = some (ra, h1))
    (hb : MergeRule.make b v sch h1 = some (rb, h2)) :
    MergeRule.make (.Add a b) v sch h =
      (ComputeMergeRule.createOrRule ra rb (.Add a b) ⟨none, h2⟩).map
        fun s => (s.mergeRule, s.heap) := by
  obtain ⟨s1, s2, e1, t1, e2, t2⟩ := ComputeMergeRule.visit_binary v sch a b h h1 h2 ra rb ha hb
  simp only [MergeRule.make, ComputeMergeRule.computeMergeRule, ComputeMergeRule.visit, e1, t1,
    e2, t2, Option.map_map]
  cases ComputeMergeRule.createOrRule ra rb (.Add a b) ⟨none, h2⟩ <;>
    simp [ComputeMergeRule.takeRule]

theorem MergeRule.make_Sub (v : Var) (sch : IterationSchedule) (a b : Expr)
    (h h1 h2 : Nat) (ra rb : MergeRule)
    (ha : MergeRule.make a v sch h = some (ra, h1))
    (hb : MergeRule.make b v sch h1 = some (rb, h2)) :
    MergeRule.make (.Sub a b) v sch h =
      (ComputeMergeRule.createOrRule ra rb (.Sub a b) ⟨none, h2⟩).map
        fun s => (s.mergeRule, s.heap) := by
  obtain ⟨s1, s2, e1, t1, e2, t2⟩ := ComputeMergeRule.visit_binary v sch a b h h1 h2 ra rb ha hb
  simp only [MergeRule.make, ComputeMergeRule.computeMergeRule, ComputeMergeRule.visit, e1, t1,
    e2, t2, Option.map_map]
  cases ComputeMergeRule.createOrRule ra rb (.Sub a b) ⟨none, h2⟩ <;>
    simp [ComputeMergeRule.takeRule]

theorem MergeRule.make_Mul (v : Var) (sch : IterationSchedule) (a b : Expr)
    (h h1 h2 : Nat) (ra rb : MergeRule)
    (ha : MergeRule.make a v sch h = some (ra, h1))
    (hb : MergeRule.make b v sch h1 = some (rb, h2)) :
    MergeRule.make (.Mul a b) v sch h =
      (ComputeMergeRule.createAndRule ra rb (.Mul a b) ⟨none, h2⟩).map
        fun s => (s.mergeRule, s.heap) := by
  obtain ⟨s1, s2, e1, t1, e2, t2⟩ := ComputeMergeRule.visit_binary v sch a b h h1 h2 ra rb ha hb
  simp only [MergeRule.make, ComputeMergeRule.computeMergeRule, ComputeMergeRule.visit, e1, t1,
    e2, t2, Option.map_map]
  cases ComputeMergeRule.createAndRule ra rb (.Mul a b) ⟨none, h2⟩ <;>
    simp [ComputeMergeRule.takeRule]

theorem MergeRule.make_Div (v : Var) (sch : IterationSchedule) (a b : Expr)
    (h h1 h2 : Nat) (ra rb : MergeRule)
    (ha : MergeRule.make a v sch h = some (ra, h1))
    (hb : MergeRule.make b v sch h1 = some (rb, h2)) :
    MergeRule.make (.Div a b) v sch h =
      (ComputeMergeRule.createAndRule ra rb (.Div a b) ⟨none, h2⟩).map
        fun s => (s.mergeRule, s.heap) := by
  obtain ⟨s1, s2, e1, t1, e2, t2⟩ := ComputeMergeRule.visit_binary v sch a b h h1 h2 ra rb ha hb
  simp only [MergeRule.make, ComputeMergeRule.computeMergeRule, ComputeMergeRule.visit, e1, t1,
    e2, t2, Option.map_map]
  cases ComputeMergeRule.createAndRule ra rb (.Div a b) ⟨none, h2⟩ <;>
    simp [ComputeMergeRule.takeRule]

/-- C1: the leaf case of `MergeRule::make`.  For a read `R` and a variable `v`, on
every schedule and from every allocator state: if `v` is not an index variable of
`R` the result is the undefined rule; if it is one, and the tensor path of `R` lists
`v`, the result is a fresh `Step` whose step is the path's step at the position of
`v` in the path's variables and whose expression is `R` itself. -/
theorem make_Read_leaf (tensor : Tensor) (indexVars : List Var) (v : Var)
    (schedule : IterationSchedule) (heap : Nat) :
    (v ∉ indexVars →
      MergeRule.make (.Read tensor indexVars) v schedule heap = some (none, heap)) ∧
    (v ∈ indexVars → v ∈ (schedule.getTensorPath (.Read tensor indexVars)).vars →
      MergeRule.make (.Read tensor indexVars) v schedule heap =
        some (some (.Step heap
          ((schedule.getTensorPath (.Read tensor indexVars)).getStep
            ((schedule.getTensorPath (.Read tensor indexVars)).vars.indexOf v))
          (.Read tensor indexVars)), heap + 1)) := by
  constructor
  · intro hv
    simp [MergeRule.make, ComputeMergeRule.computeMergeRule, ComputeMergeRule.visit,
      util.contains, hv, ComputeMergeRule.takeRule]
  · intro hv hp
    simp [MergeRule.make, ComputeMergeRule.computeMergeRule, ComputeMergeRule.visit,
      util.contains, hv, ComputeMergeRule.takeRule, util.locate_eq_indexOf _ _ hp, Step.make]

theorem make_Read_leaf_witness :
    (exJ ∉ [exI] ∧ MergeRule.make (.Read exB [exI]) exJ exSchedule 7 = some (none, 7)) ∧
    (exI ∈ [exI] ∧ exI ∈ (exSchedule.getTensorPath (.Read exB [exI])).vars ∧
      MergeRule.make (.Read exB [exI]) exI exSchedule 7 =
        some (some (.Step 7 exStepB (.Read exB [exI])), 8)) :=
  ⟨⟨by decide, (make_Read_leaf exB [exI] exJ exSchedule 7).1 (by decide)⟩,
   ⟨by decide, by decide,
    (make_Read_leaf exB [exI] exI exSchedule 7).2 (by decide) (by decide)⟩⟩

/-- C2: the additive case of `MergeRule::make`.  For `n = a + b` or `n = a - b`,
with `ra` the rule built for `a` and `rb` the rule built for `b` right after it:
both defined gives a fresh `Or` over `ra` and `rb` whose expression is `n`; exactly
one defined gives that rule itself; none defined gives the undefined rule.  The
last conjunct says that a rule left in the visitor by an earlier visit has no
influence on the result. -/
theorem make_additive (n a b : Expr) (v : Var) (schedule : IterationSchedule)
    (h h1 h2 : Nat) (ra rb : MergeRule)
    (hn : n = .Add a b ∨ n = .Sub a b)
    (ha : MergeRule.make a v schedule h = some (ra, h1))
    (hb : MergeRule.make b v schedule h1 = some (rb, h2)) :
    (∀ x y, ra = some x → rb = some y →
      MergeRule.make n v schedule h = some (some (.Or h2 x y n), h2 + 1)) ∧
    (∀ x, ra = some x → rb = none → MergeRule.make n v schedule h = some (some x, h2)) ∧
    (∀ y, ra = none → rb = some y → MergeRule.make n v schedule h = some (some y, h2)) ∧
    (ra = none → rb = none → MergeRule.make n v schedule h = some (none, h2)) ∧
    (∀ stale, ComputeMergeRule.computeMergeRule v schedule n ⟨stale, h⟩ =
      (MergeRule.make n v schedule h).map fun (r, h') => (r, ⟨none, h'⟩)) := by
  have key : MergeRule.make n v schedule h =
      (ComputeMergeRule.createOrRule ra rb n ⟨none, h2⟩).map fun s => (s.mergeRule, s.heap) := by
    rcases hn with hn | hn
    · rw [hn]; exact MergeRule.make_Add v schedule a b h h1 h2 ra rb ha hb
    · rw [hn]; exact MergeRule.make_Sub v schedule a b h h1 h2 ra rb ha hb
  refine ⟨?_, ?_, ?_, ?_, ?_⟩
  · intro x y hx hy
    simp [key, hx, hy, ComputeMergeRule.createOrRule, MergeRule.defined, Or.make]
  · intro x hx hy
    simp [key, hx, hy, ComputeMergeRule.createOrRule, MergeRule.defined]
  · intro y hx hy
    simp [key, hx, hy, ComputeMergeRule.createOrRule, MergeRule.defined]
  · intro hx hy
    simp [key, hx, hy, ComputeMergeRule.createOrRule, MergeRule.defined]
  · intro stale
    exact ComputeMergeRule.computeMergeRule_eq_make v schedule n stale h

theorem make_additive_witness :
    MergeRule.make (.Add exReadA exReadB) exI exSchedule 0 =
        some (some (.Or 2 (.Step 0 exStepA exReadA) (.Step 1 exStepB exReadB)
          (.Add exReadA exReadB)), 3) ∧
      MergeRule.make (.Sub exReadA exReadBj) exI exSchedule 0 =
        some (some (.Step 0 exStepA exReadA), 1) ∧
      MergeRule.make (.Add exReadBj exReadA) exI exSchedule 0 =
        some (some (.Step 0 exStepA exReadA), 1) ∧
      MergeRule.make (.Sub exReadBj exReadBj) exI exSchedule 0 = some (none, 0) :=
  ⟨(make_additive (.Add exReadA exReadB) exReadA exReadB exI exSchedule 0 1 2
      (some (.Step 0 exStepA exReadA)) (some (.Step 1 exStepB exReadB))
      (Or.inl rfl) (by decide) (by decide)).1 _ _ rfl rfl,
   (make_additive (.Sub exReadA exReadBj) exReadA exReadBj exI exSchedule 0 1 1
      (some (.Step 0 exStepA exReadA)) none
      (Or.inr rfl) (by decide) (by decide)).2.1 _ rfl rfl,
   (make_additive (.Add exReadBj exReadA) exReadBj exReadA exI exSchedule 0 0 1
      none (some (.Step 0 exStepA exReadA))
      (Or.inl rfl) (by decide) (by decide)).2.2.1 _ rfl rfl,
   (make_additive (.Sub exReadBj exReadBj) exReadBj exReadBj exI exSchedule 0 0 0
      none none
      (Or.inr rfl) (by decide) (by decide)).2.2.2.1 rfl rfl⟩

/-- C3: the multiplicative case of `MergeRule::make`.  For `n = a * b` or
`n = a / b`, with `ra` the rule built for `a` and `rb` the rule built for `b` right
after it: both defined gives a fresh `And` over `ra` and `rb` whose expression is
`n`; exactly one defined gives that rule itself; none defined gives the undefined
rule. -/
theorem make_multiplicative (n a b : Expr) (v : Var) (schedule : IterationSchedule)
    (h h1 h2 : Nat) (ra rb : MergeRule)
    (hn : n = .Mul a b ∨ n = .Div a b)
    (ha : MergeRule.make a v schedule h = some (ra, h1))
    (hb : MergeRule.make b v schedule h1 = some (rb, h2)) :
    (∀ x y, ra = some x → rb = some y →
      MergeRule.make n v schedule h = some (some (.And h2 x y n), h2 + 1)) ∧
    (∀ x, ra = some x → rb = none → MergeRule.make n v schedule h = some (some x, h2)) ∧
    (∀ y, ra = none → rb = some y → MergeRule.make n v schedule h = some (some y, h2)) ∧
    (ra = none → rb = none → MergeRule.make n v schedule h = some (none, h2)) := by
  have key : MergeRule.make n v schedule h =
      (ComputeMergeRule.createAndRule ra rb n ⟨none, h2⟩).map fun s => (s.mergeRule, s.heap) := by
    rcases hn with hn | hn
    · rw [hn]; exact MergeRule.make_Mul v schedule a b h h1 h2 ra rb ha hb
    · rw [hn]; exact MergeRule.make_Div v schedule a b h h1 h2 ra rb ha hb
  refine ⟨?_, ?_, ?_, ?_⟩
  · intro x y hx hy
    simp [key, hx, hy, ComputeMergeRule.createAndRule, MergeRule.defined, And.make]
  · intro x hx hy
    simp [key, hx, hy, ComputeMergeRule.createAndRule, MergeRule.defined]
  · intro y hx hy
    simp [key, hx, hy, ComputeMergeRule.createAndRule, MergeRule.defined]
  · intro hx hy
    simp [key, hx, hy, ComputeMergeRule.createAndRule, MergeRule.defined]

theorem make_multiplicative_witness :
    MergeRule.make (.Mul exReadA exReadB) exI exSchedule 0 =
        some (some (.And 2 (.Step 0 exStepA exReadA) (.Step 1 exStepB exReadB)
          (.Mul exReadA exReadB)), 3) ∧
      MergeRule.make (.Div exReadA exReadBj) exI exSchedule 0 =
        some (some (.Step 0 exStepA exReadA), 1) ∧
      MergeRule.make (.Mul exReadBj exReadA) exI exSchedule 0 =
        some (some (.Step 0 exStepA exReadA), 1) ∧
      MergeRule.make (.Div exReadBj exReadBj) exI exSchedule 0 = some (none, 0) :=
  ⟨(make_multiplicative (.Mul exReadA exReadB) exReadA exReadB exI exSchedule 0 1 2
      (some (.Step 0 exStepA exReadA)) (some (.Step 1 exStepB exReadB))
      (Or.inl rfl) (by decide) (by decide)).1 _ _ rfl rfl,
   (make_multiplicative (.Div exReadA exReadBj) exReadA exReadBj exI exSchedule 0 1 1
      (some (.Step 0 exStepA exReadA)) none
      (Or.inr rfl) (by decide) (by decide)).2.1 _ rfl rfl,
   (make_multiplicative (.Mul exReadBj exReadA) exReadBj exReadA exI exSchedule 0 0 1
      none (some (.Step 0 exStepA exReadA))
      (Or.inl rfl) (by decide) (by decide)).2.2.1 _ rfl rfl,
   (make_multiplicative (.Div exReadBj exReadBj) exReadBj exReadBj exI exSchedule 0 0 0
      none none
      (Or.inr rfl) (by decide) (by decide)).2.2.2 rfl rfl⟩

/-! ## The simplifier, case by case -/

/-- The state the local `simplify` leaves behind has its member `mergeRule` reset. -/
theorem SimplifyVisitor.simplify_some (n : MergeRuleNode) (s s' : SimplifyVisitor)
    (r : MergeRule) (h : SimplifyVisitor.simplify (some n) s = some (r, s')) :
    ∃ t, SimplifyVisitor.visit n s = some t ∧ SimplifyVisitor.takeRule t = (r, s') ∧
      s'.mergeRule = none := by
  simp only [SimplifyVisitor.simplify, Option.map_eq_some'] at h
  obtain ⟨t, ht, e⟩ := h
  refine ⟨t, ht, e, ?_⟩
  simp only [SimplifyVisitor.takeRule, Prod.mk.injEq] at e
  rw [← e.2]

theorem SimplifyVisitor.simplify_Or (p : Nat) (a b : MergeRuleNode) (e : Expr) (h : Nat) :
    taco.simplify (some (.Or p a b e)) h = some (some (.Or p a b e), h) := by
  simp [taco.simplify, SimplifyVisitor.simplify, SimplifyVisitor.visit, SimplifyVisitor.takeRule]

theorem SimplifyVisitor.simplify_Step (p : Nat) (step : TensorPathStep) (e : Expr) (h : Nat)
    (t : LevelType) (ht : step.levelType = some t) :
    taco.simplify (some (.Step p step e)) h = some (some (.Step p step e), h) := by
  simp [taco.simplify, SimplifyVisitor.simplify, SimplifyVisitor.visit,
    SimplifyVisitor.takeRule, ht]

theorem SimplifyVisitor.simplify_dense_dense (p p1 p2 : Nat) (st1 st2 : TensorPathStep)
    (e e1 e2 : Expr) (h : Nat)
    (h1 : st1.levelType = some LevelType.Dense)
    (h2 : st2.levelType = some LevelType.Dense) :
    taco.simplify (some (.And p (.Step p1 st1 e1) (.Step p2 st2 e2) e)) h =
      some (some (.And h (.Step p1 st1 e1) (.Step p2 st2 e2) e), h + 1) := by
  simp [taco.simplify, SimplifyVisitor.simplify, SimplifyVisitor.visit,
    SimplifyVisitor.takeRule, SimplifyVisitor.andRule, SimplifyVisitor.contains, h1, h2,
    And.make, MergeRuleNode.ptr, List.mem_insert_iff]

/-- C4: the `And` case of the simplifier.  With `a'` and `b'` the results of
simplifying `a` and then `b` on one shared visitor, and `D` the dense set after
both: when `a'` and `b'` are both in `D` the result is a fresh `And` over them with
the expression of the original node; when `b'` is in `D` and `a'` is not, the
result is `a'` itself; when `b'` is not in `D` the result is `b'` itself, whether
or not `a'` is in `D`. -/
theorem simplify_And_case (p : Nat) (a b : MergeRuleNode) (e : Expr)
    (s s1 s2 : SimplifyVisitor) (a' b' : MergeRule)
    (ha : SimplifyVisitor.simplify (some a) s = some (a', s1))
    (hb : SimplifyVisitor.simplify (some b) s1 = some (b', s2)) :
    (SimplifyVisitor.contains s2.denseRules a' = true →
      SimplifyVisitor.contains s2.denseRules b' = true →
      ∃ x y, a' = some x ∧ b' = some y ∧
        SimplifyVisitor.simplify (some (.And p a b e)) s =
          some (some (.And s2.heap x y e), { s2 with heap := s2.heap + 1 })) ∧
    (SimplifyVisitor.contains s2.denseRules a' = false →
      SimplifyVisitor.contains s2.denseRules b' = true →
      SimplifyVisitor.simplify (some (.And p a b e)) s = some (a', s2)) ∧
    (SimplifyVisitor.contains s2.denseRules b' = false →
      SimplifyVisitor.simplify (some (.And p a b e)) s = some (b', s2)) := by
  obtain ⟨t1, v1, k1, -⟩ := SimplifyVisitor.simplify_some a s s1 a' ha
  obtain ⟨t2, v2, k2, m2⟩ := SimplifyVisitor.simplify_some b s1 s2 b' hb
  have hv : SimplifyVisitor.visit (.And p a b e) s = SimplifyVisitor.andRule a' b' e s2 := by
    simp only [SimplifyVisitor.visit, v1, k1, v2, k2]
  have hs2 : ({ s2 with mergeRule := none } : SimplifyVisitor) = s2 := by
    cases s2; simp_all
  refine ⟨?_, ?_, ?_⟩
  · intro ca cb
    cases a' with
    | none => simp [SimplifyVisitor.contains] at ca
    | some x =>
      cases b' with
      | none => simp [SimplifyVisitor.contains] at cb
      | some y =>
        refine ⟨x, y, rfl, rfl, ?_⟩
        simp [SimplifyVisitor.simplify, hv, SimplifyVisitor.andRule, ca, cb, And.make,
          SimplifyVisitor.takeRule, m2]
  · intro ca cb
    simp [SimplifyVisitor.simplify, hv, SimplifyVisitor.andRule, ca, cb,
      SimplifyVisitor.takeRule, hs2]
  · intro cb
    simp [SimplifyVisitor.simplify, hv, SimplifyVisitor.andRule, cb,
      SimplifyVisitor.takeRule, hs2]

theorem simplify_And_case_witness :
    (SimplifyVisitor.simplify (some (.Step 0 exStepA exReadA)) ⟨[], none, 3⟩ =
        some (some (.Step 0 exStepA exReadA), ⟨[0], none, 3⟩) ∧
      SimplifyVisitor.simplify (some (.Step 1 exStepA exReadA)) ⟨[0], none, 3⟩ =
        some (some (.Step 1 exStepA exReadA), ⟨[1, 0], none, 3⟩) ∧
      ∃ x y, some (MergeRuleNode.Step 0 exStepA exReadA) = some x ∧
        some (MergeRuleNode.Step 1 exStepA exReadA) = some y ∧
        SimplifyVisitor.simplify (some exAndAA) ⟨[], none, 3⟩ =
          some (some (.And 3 x y (.Mul exReadA exReadA)), ⟨[1, 0], none, 4⟩)) ∧
    (SimplifyVisitor.simplify (some (.Step 0 exStepB exReadB)) ⟨[], none, 3⟩ =
        some (some (.Step 0 exStepB exReadB), ⟨[], none, 3⟩) ∧
      SimplifyVisitor.simplify (some (.Step 1 exStepA exReadA)) ⟨[], none, 3⟩ =
        some (some (.Step 1 exStepA exReadA), ⟨[1], none, 3⟩) ∧
      SimplifyVisitor.simplify (some exAndBA) ⟨[], none, 3⟩ =
        some (some (.Step 0 exStepB exReadB), ⟨[1], none, 3⟩)) ∧
    (SimplifyVisitor.simplify (some (.Step 0 exStepA exReadA)) ⟨[], none, 3⟩ =
        some (some (.Step 0 exStepA exReadA), ⟨[0], none, 3⟩) ∧
      SimplifyVisitor.simplify (some (.Step 1 exStepB exReadB)) ⟨[0], none, 3⟩ =
        some (some (.Step 1 exStepB exReadB), ⟨[0], none, 3⟩) ∧
      SimplifyVisitor.simplify (some exAndAB) ⟨[], none, 3⟩ =
        some (some (.Step 1 exStepB exReadB), ⟨[0], none, 3⟩)) ∧
    (SimplifyVisitor.simplify (some (.Step 0 exStepB exReadB)) ⟨[], none, 3⟩ =
        some (some (.Step 0 exStepB exReadB), ⟨[], none, 3⟩) ∧
      SimplifyVisitor.simplify (some (.Step 1 exStepC exReadC)) ⟨[], none, 3⟩ =
        some (some (.Step 1 exStepC exReadC), ⟨[], none, 3⟩) ∧
      SimplifyVisitor.simplify (some exAndBC) ⟨[], none, 3⟩ =
        some (some (.Step 1 exStepC exReadC), ⟨[], none, 3⟩)) :=
  ⟨⟨by decide, by decide,
      (simplify_And_case 2 (.Step 0 exStepA exReadA) (.Step 1 exStepA exReadA)
        (.Mul exReadA exReadA) ⟨[], none, 3⟩ ⟨[0], none, 3⟩ ⟨[1, 0], none, 3⟩
        (some (.Step 0 exStepA exReadA)) (some (.Step 1 exStepA exReadA))
        (by decide) (by decide)).1 (by decide) (by decide)⟩,
   ⟨by decide, by decide,
      (simplify_And_case 2 (.Step 0 exStepB exReadB) (.Step 1 exStepA exReadA)
        (.Mul exReadB exReadA) ⟨[], none, 3⟩ ⟨[], none, 3⟩ ⟨[1], none, 3⟩
        (some (.Step 0 exStepB exReadB)) (some (.Step 1 exStepA exReadA))
        (by decide) (by decide)).2.1 (by decide) (by decide)⟩,
   ⟨by decide, by decide,
      (simplify_And_case 2 (.Step 0 exStepA exReadA) (.Step 1 exStepB exReadB)
        (.Mul exReadA exReadB) ⟨[], none, 3⟩ ⟨[0], none, 3⟩ ⟨[0], none, 3⟩
        (some (.Step 0 exStepA exReadA)) (some (.Step 1 exStepB exReadB))
        (by decide) (by decide)).2.2 (by decide)⟩,
   ⟨by decide, by decide,
      (simplify_And_case 2 (.Step 0 exStepB exReadB) (.Step 1 exStepC exReadC)
        (.Mul exReadB exReadC) ⟨[], none, 3⟩ ⟨[], none, 3⟩ ⟨[], none, 3⟩
        (some (.Step 0 exStepB exReadB)) (some (.Step 1 exStepC exReadC))
        (by decide) (by decide)).2.2 (by decide)⟩⟩

/-- C5: the simplifier is the identity on a rule whose root is not an `And`.  An
`Or` is returned as the same node, children and expression untouched, and the
visitor does not descend: its dense set and the allocator are as before.  A `Step`
whose position has a level is returned as the same node, whatever the level type. -/
theorem simplify_Or_Step_identity :
    (∀ p a b e h, simplify (some (.Or p a b e)) h = some (some (.Or p a b e), h)) ∧
    (∀ p a b e s, SimplifyVisitor.simplify (some (.Or p a b e)) s =
      some (some (.Or p a b e), { s with mergeRule := none })) ∧
    (∀ p step e h t, TensorPathStep.levelType step = some t →
      simplify (some (.Step p step e)) h = some (some (.Step p step e), h)) := by
  refine ⟨SimplifyVisitor.simplify_Or, ?_, SimplifyVisitor.simplify_Step⟩
  intro p a b e s
  simp [SimplifyVisitor.simplify, SimplifyVisitor.visit, SimplifyVisitor.takeRule]

theorem simplify_Or_Step_identity_witness :
    (TensorPathStep.levelType exStepA = some LevelType.Dense ∧
      simplify (some (.Step 0 exStepA exReadA)) 1 = some (some (.Step 0 exStepA exReadA), 1)) ∧
    (TensorPathStep.levelType exStepB = some LevelType.Sparse ∧
      simplify (some (.Step 0 exStepB exReadB)) 1 = some (some (.Step 0 exStepB exReadB), 1)) ∧
    simplify (some (.Or 3 (.And 2 (.Step 0 exStepA exReadA) (.Step 1 exStepB exReadB)
        (.Mul exReadA exReadB)) (.Step 1 exStepB exReadB) exReadC)) 4 =
      some (some (.Or 3 (.And 2 (.Step 0 exStepA exReadA) (.Step 1 exStepB exReadB)
        (.Mul exReadA exReadB)) (.Step 1 exStepB exReadB) exReadC), 4) :=
  ⟨⟨by decide, simplify_Or_Step_identity.2.2 0 exStepA exReadA 1 LevelType.Dense (by decide)⟩,
   ⟨by decide, simplify_Or_Step_identity.2.2 0 exStepB exReadB 1 LevelType.Sparse (by decide)⟩,
   simplify_Or_Step_identity.1 _ _ _ _ _⟩

/-- C8: an `And` of two dense steps is kept.  For two `Step` leaves whose level
types are both `Dense` and every expression `e`, the simplifier returns a fresh
`And` whose left operand is the first leaf, whose right operand is the second leaf
and whose expression is `e`. -/
theorem simplify_And_dense_dense (p p1 p2 : Nat) (st1 st2 : TensorPathStep)
    (e e1 e2 : Expr) (h : Nat)
    (h1 : TensorPathStep.levelType st1 = some LevelType.Dense)
    (h2 : TensorPathStep.levelType st2 = some LevelType.Dense) :
    simplify (some (.And p (.Step p1 st1 e1) (.Step p2 st2 e2) e)) h =
      some (some (.And h (.Step p1 st1 e1) (.Step p2 st2 e2) e), h + 1) :=
  SimplifyVisitor.simplify_dense_dense p p1 p2 st1 st2 e e1 e2 h h1 h2

theorem simplify_And_dense_dense_witness :
    TensorPathStep.levelType exStepA = some LevelType.Dense ∧
    simplify (some (.And 2 (.Step 0 exStepA exReadA) (.Step 1 exStepA exReadA)
        (.Mul exReadA exReadA))) 3 =
      some (some (.And 3 (.Step 0 exStepA exReadA) (.Step 1 exStepA exReadA)
        (.Mul exReadA exReadA)), 4) :=
  ⟨by decide, simplify_And_dense_dense 2 0 1 exStepA exStepA (.Mul exReadA exReadA)
    exReadA exReadA 3 (by decide) (by decide)⟩

/-! ## Flattening -/

theorem GetPathsVisitor.visit_eq (r : MergeRuleNode) (steps : List TensorPathStep) :
    GetPathsVisitor.visit r steps = steps ++ r.stepLeaves := by
  induction r generalizing steps with
  | Step p st e => simp [GetPathsVisitor.visit, MergeRuleNode.stepLeaves]
  | And p a b e iha ihb =>
    simp [GetPathsVisitor.visit, MergeRuleNode.stepLeaves, iha, ihb]
  | Or p a b e iha ihb =>
    simp [GetPathsVisitor.visit, MergeRuleNode.stepLeaves, iha, ihb]

theorem MergeRuleNode.length_stepLeaves (r : MergeRuleNode) :
    r.stepLeaves.length = r.numStepLeaves := by
  induction r with
  | Step p st e => simp [MergeRuleNode.stepLeaves, MergeRuleNode.numStepLeaves]
  | And p a b e iha ihb =>
    simp [MergeRuleNode.stepLeaves, MergeRuleNode.numStepLeaves, iha, ihb]
  | Or p a b e iha ihb =>
    simp [MergeRuleNode.stepLeaves, MergeRuleNode.numStepLeaves, iha, ihb]

/-- C10: `MergeRule::getSteps` flattens a defined rule to the path steps of its
`Step` leaves, left to right and depth first: a `Step` gives the one-element list
of its step, an `And` and an `Or` give the steps of the left operand followed by
those of the right operand, and the length of the result is the number of `Step`
leaves. -/
theorem getSteps_flattens :
    (∀ r, MergeRule.getSteps (some r) = some r.stepLeaves) ∧
    (∀ p st e, MergeRule.getSteps (some (.Step p st e)) = some [st]) ∧
    (∀ p a b e, ∃ xs ys, MergeRule.getSteps (some a) = some xs ∧
      MergeRule.getSteps (some b) = some ys ∧
      MergeRule.getSteps (some (.And p a b e)) = some (xs ++ ys) ∧
      MergeRule.getSteps (some (.Or p a b e)) = some (xs ++ ys)) ∧
    (∀ r, ∃ xs, MergeRule.getSteps (some r) = some xs ∧ xs.length = r.numStepLeaves) := by
  have key : ∀ r, MergeRule.getSteps (some r) = some r.stepLeaves := by
    intro r
    simp [MergeRule.getSteps, GetPathsVisitor.visit_eq]
  refine ⟨key, ?_, ?_, ?_⟩
  · intro p st e
    simp [key, MergeRuleNode.stepLeaves]
  · intro p a b e
    exact ⟨a.stepLeaves, b.stepLeaves, key a, key b, by simp [key, MergeRuleNode.stepLeaves],
      by simp [key, MergeRuleNode.stepLeaves]⟩
  · intro r
    exact ⟨r.stepLeaves, key r, r.length_stepLeaves⟩

/-! ## The dense set against the structural test -/

theorem MergeRuleNode.self_mem_nodes (r : MergeRuleNode) : r ∈ r.nodes := by
  cases r <;> simp [MergeRuleNode.nodes]

/-- An address found in the dense set belongs to a dense step, as long as the set
only holds addresses of dense steps among the live objects `U` and the node is
either one of these objects or was allocated after all of them. -/
theorem SimplifyVisitor.dense_of_mem (U : List MergeRuleNode) (h0 : Nat)
    (hU1 : ∀ x ∈ U, ∀ y ∈ U, x.ptr = y.ptr → x = y)
    (hU2 : ∀ x ∈ U, x.ptr < h0)
    (D : List Nat) (hD : ∀ p ∈ D, ∃ x ∈ U, x.ptr = p ∧ x.isDenseStep = true)
    (r : MergeRuleNode) (hr : r ∈ U ∨ h0 ≤ r.ptr) (hm : r.ptr ∈ D) :
    r.isDenseStep = true := by
  obtain ⟨x, hx, hp, hd⟩ := hD _ hm
  rcases hr with hr | hr
  · rw [hU1 r hr x hx hp.symm]; exact hd
  · have := hU2 x hx
    omega

/-- The simplifier computes what `simplifyStructural` computes, on every visitor
whose dense set only holds addresses of dense steps among the live objects `U`. -/
theorem SimplifyVisitor.visit_eq_structural (U : List MergeRuleNode) (h0 : Nat)
    (hU1 : ∀ x ∈ U, ∀ y ∈ U, x.ptr = y.ptr → x = y)
    (hU2 : ∀ x ∈ U, x.ptr < h0) (r : MergeRuleNode) :
    (∀ x ∈ r.nodes, x ∈ U) → ∀ s : SimplifyVisitor, h0 ≤ s.heap →
    (∀ p ∈ s.denseRules, ∃ x ∈ U, x.ptr = p ∧ x.isDenseStep = true) →
    match simplifyStructural r s.heap with
    | none => SimplifyVisitor.visit r s = none
    | some (r', h') => ∃ D', SimplifyVisitor.visit r s = some ⟨D', some r', h'⟩ ∧
        (∀ p ∈ D', ∃ x ∈ U, x.ptr = p ∧ x.isDenseStep = true) ∧
        (∀ p ∈ s.denseRules, p ∈ D') ∧ s.heap ≤ h' ∧
        (r' ∈ U ∨ (h0 ≤ r'.ptr ∧ r'.isDenseStep = false)) ∧
        (r'.isDenseStep = true → r'.ptr ∈ D') := by
  induction r with
  | Step p st e =>
    intro hsub s hs hD
    have hmem : MergeRuleNode.Step p st e ∈ U := hsub _ (MergeRuleNode.self_mem_nodes _)
    simp only [simplifyStructural, SimplifyVisitor.visit]
    cases hl : st.levelType with
    | none => simp
    | some t =>
      simp only
      refine ⟨_, rfl, ?_, ?_, le_refl _, Or.inl hmem, ?_⟩
      · intro q hq
        by_cases ht : t = LevelType.Dense
        · simp only [ht, if_true, List.mem_insert_iff] at hq
          rcases hq with hq | hq
          · exact ⟨_, hmem, by simp [MergeRuleNode.ptr, hq], by
              simp [MergeRuleNode.isDenseStep, hl, ht]⟩
          · exact hD q hq
        · simp only [ht, if_false] at hq
          exact hD q hq
      · intro q hq
        by_cases ht : t = LevelType.Dense
        · simp [ht, List.mem_insert_iff, hq]
        · simp [ht, hq]
      · intro hd
        have ht : t = LevelType.Dense := by
          simpa [MergeRuleNode.isDenseStep, hl] using hd
        simp [ht, MergeRuleNode.ptr, List.mem_insert_iff]
  | Or p a b e _ _ =>
    intro hsub s hs hD
    have hmem : MergeRuleNode.Or p a b e ∈ U := hsub _ (MergeRuleNode.self_mem_nodes _)
    simp only [simplifyStructural, SimplifyVisitor.visit]
    exact ⟨_, rfl, hD, fun q hq => hq, le_refl _, Or.inl hmem, by
      simp [MergeRuleNode.isDenseStep]⟩
  | And p a b e iha ihb =>
    intro hsub s hs hD
    have hsa : ∀ x ∈ a.nodes, x ∈ U := fun x hx =>
      hsub x (by simp [MergeRuleNode.nodes, hx])
    have hsb : ∀ x ∈ b.nodes, x ∈ U := fun x hx =>
      hsub x (by simp [MergeRuleNode.nodes, hx])
    have ha := iha hsa s hs hD
    simp only [simplifyStructural, SimplifyVisitor.visit]
    cases hra : simplifyStructural a s.heap with
    | none =>
      rw [hra] at ha
      simp only at ha
      simp [ha]
    | some pa =>
      obtain ⟨a', h1⟩ := pa
      rw [hra] at ha
      simp only at ha
      obtain ⟨D1, hva, hD1, hsub1, hle1, hres1, hmem1⟩ := ha
      have hb := ihb hsb ⟨D1, none, h1⟩ (le_trans hs hle1) hD1
      simp only [hva, SimplifyVisitor.takeRule]
      cases hrb : simplifyStructural b h1 with
      | none =>
        rw [hrb] at hb
        simp only at hb
        simp [hb]
      | some pb =>
        obtain ⟨b', h2⟩ := pb
        rw [hrb] at hb
        simp only at hb
        obtain ⟨D2, hvb, hD2, hsub2, hle2, hres2, hmem2⟩ := hb
        simp only [hvb]
        have hresa : a' ∈ U ∨ h0 ≤ a'.ptr := hres1.imp id And.left
        have hresb : b' ∈ U ∨ h0 ≤ b'.ptr := hres2.imp id And.left
        have ca : SimplifyVisitor.contains D2 (some a') = a'.isDenseStep := by
          cases hd : a'.isDenseStep with
          | true => simpa [SimplifyVisitor.contains] using hsub2 _ (hmem1 hd)
          | false =>
            simp only [SimplifyVisitor.contains, decide_eq_false_iff_not]
            intro hm
            have := SimplifyVisitor.dense_of_mem U h0 hU1 hU2 D2 hD2 a' hresa hm
            simp [hd] at this
        have cb : SimplifyVisitor.contains D2 (some b') = b'.isDenseStep := by
          cases hd : b'.isDenseStep with
          | true => simpa [SimplifyVisitor.contains] using hmem2 hd
          | false =>
            simp only [SimplifyVisitor.contains, decide_eq_false_iff_not]
            intro hm
            have := SimplifyVisitor.dense_of_mem U h0 hU1 hU2 D2 hD2 b' hresb hm
            simp [hd] at this
        simp only [SimplifyVisitor.andRule, ca, cb]
        have hle : s.heap ≤ h2 := le_trans hle1 hle2
        by_cases c1 : (a'.isDenseStep && b'.isDenseStep) = true
        · simp only [c1, if_true, And.make, Option.map]
          refine ⟨D2, rfl, hD2, fun q hq => hsub2 q (hsub1 q hq), by omega,
            Or.inr ⟨?_, by simp [MergeRuleNode.isDenseStep]⟩, by
              simp [MergeRuleNode.isDenseStep]⟩
          simp only [MergeRuleNode.ptr]
          omega
        · simp only [c1]
          by_cases c2 : b'.isDenseStep = true
          · simp only [c2, if_true]
            exact ⟨D2, by simp, hD2, fun q hq => hsub2 q (hsub1 q hq), hle, hres1,
              fun hd => hsub2 _ (hmem1 hd)⟩
          · simp only [c2]
            exact ⟨D2, by simp, hD2, fun q hq => hsub2 q (hsub1 q hq), hle, hres2, hmem2⟩

/-- On a graph of live heap objects, `simplify` is `simplifyStructural`. -/
theorem simplify_eq_structural (r : MergeRuleNode) (h : Nat) (hwf : r.onHeap h) :
    simplify (some r) h = (simplifyStructural r h).map fun (r', h') => (some r', h') := by
  have key := SimplifyVisitor.visit_eq_structural r.nodes h hwf.1 hwf.2 r (fun x hx => hx)
    ⟨[], none, h⟩ (le_refl _) (by simp)
  simp only [simplify, SimplifyVisitor.simplify]
  cases hr : simplifyStructural r h with
  | none =>
    rw [hr] at key
    simp only at key
    simp [key]
  | some pr =>
    obtain ⟨r', h'⟩ := pr
    rw [hr] at key
    simp only at key
    obtain ⟨D', hv, -⟩ := key
    simp [hv, SimplifyVisitor.takeRule]

/-- The simplifier returns when every step it looks up has a level. -/
theorem simplifyStructural_total (r : MergeRuleNode) :
    r.levelsInRange → ∀ h, ∃ r' h', simplifyStructural r h = some (r', h') := by
  induction r with
  | Step p st e =>
    intro hl h
    simp only [MergeRuleNode.levelsInRange] at hl
    obtain ⟨t, ht⟩ := Option.ne_none_iff_exists'.mp hl
    exact ⟨.Step p st e, h, by simp [simplifyStructural, ht]⟩
  | Or p a b e _ _ =>
    intro _ h
    exact ⟨.Or p a b e, h, by simp [simplifyStructural]⟩
  | And p a b e iha ihb =>
    intro hl h
    simp only [MergeRuleNode.levelsInRange] at hl
    obtain ⟨a', h1, ea⟩ := iha hl.1 h
    obtain ⟨b', h2, eb⟩ := ihb hl.2 h1
    simp only [simplifyStructural, ea, eb]
    by_cases c1 : (a'.isDenseStep && b'.isDenseStep) = true
    · exact ⟨.And h2 a' b' e, h2 + 1, by rw [if_pos c1]⟩
    · by_cases c2 : b'.isDenseStep = true
      · exact ⟨a', h2, by rw [if_neg c1, if_pos c2]⟩
      · exact ⟨b', h2, by rw [if_neg c1, if_neg c2]⟩

/-- What the simplifier can return: a `Step` that has a level, an `Or`, or a fresh
`And` of two dense steps. -/
theorem simplifyStructural_result (r : MergeRuleNode) :
    ∀ h r' h', simplifyStructural r h = some (r', h') →
      (∃ p st e t, r' = .Step p st e ∧ st.levelType = some t) ∨
      (∃ p a b e, r' = .Or p a b e) ∨
      (∃ q p1 st1 e1 p2 st2 e2 e, r' = .And q (.Step p1 st1 e1) (.Step p2 st2 e2) e ∧
        st1.levelType = some LevelType.Dense ∧ st2.levelType = some LevelType.Dense) := by
  induction r with
  | Step p st e =>
    intro h r' h' hr
    simp only [simplifyStructural] at hr
    cases hl : st.levelType with
    | none => simp [hl] at hr
    | some t =>
      simp only [hl, Option.some.injEq, Prod.mk.injEq] at hr
      exact Or.inl ⟨p, st, e, t, hr.1.symm, hl⟩
  | Or p a b e _ _ =>
    intro h r' h' hr
    simp only [simplifyStructural, Option.some.injEq, Prod.mk.injEq] at hr
    exact Or.inr (Or.inl ⟨p, a, b, e, hr.1.symm⟩)
  | And p a b e iha ihb =>
    intro h r' h' hr
    simp only [simplifyStructural] at hr
    cases ea : simplifyStructural a h with
    | none => simp [ea] at hr
    | some pa =>
      obtain ⟨a', h1⟩ := pa
      simp only [ea] at hr
      cases eb : simplifyStructural b h1 with
      | none => simp [eb] at hr
      | some pb =>
        obtain ⟨b', h2⟩ := pb
        simp only [eb] at hr
        by_cases c1 : (a'.isDenseStep && b'.isDenseStep) = true
        · simp only [c1, if_true, Option.some.injEq, Prod.mk.injEq] at hr
          simp only [Bool.and_eq_true] at c1
          obtain ⟨da, db⟩ := c1
          cases a' with
          | Step p1 st1 e1 =>
            cases b' with
            | Step p2 st2 e2 =>
              simp only [MergeRuleNode.isDenseStep, decide_eq_true_eq] at da db
              exact Or.inr (Or.inr ⟨h2, p1, st1, e1, p2, st2, e2, e, hr.1.symm, da, db⟩)
            | And _ _ _ _ => simp [MergeRuleNode.isDenseStep] at db
            | Or _ _ _ _ => simp [MergeRuleNode.isDenseStep] at db
          | And _ _ _ _ => simp [MergeRuleNode.isDenseStep] at da
          | Or _ _ _ _ => simp [MergeRuleNode.isDenseStep] at da
        · rw [if_neg c1] at hr
          by_cases c2 : b'.isDenseStep = true
          · rw [if_pos c2] at hr
            simp only [Option.some.injEq, Prod.mk.injEq] at hr
            rw [← hr.1]
            exact iha h a' h1 ea
          · rw [if_neg c2] at hr
            simp only [Option.some.injEq, Prod.mk.injEq] at hr
            rw [← hr.1]
            exact ihb h1 b' h2 eb

/-- C6: the simplifier is idempotent up to addresses.  On a rule that is a graph of
live heap objects and whose visited steps all have a level, `simplify` returns a rule
`r1` that is defined, and simplifying `r1` again, from any allocator state, returns
a rule that is defined and has the same structure: same node kinds, same path
steps, same expressions. -/
theorem simplify_idempotent (r : MergeRuleNode) (h : Nat) (hwf : r.onHeap h)
    (hl : r.levelsInRange) :
    ∃ r1 h1, simplify (some r) h = some (some r1, h1) ∧
      ∀ h2, ∃ r2 h3, simplify (some r1) h2 = some (some r2, h3) ∧ r2.shape = r1.shape := by
  obtain ⟨r1, h1, hr⟩ := simplifyStructural_total r hl h
  refine ⟨r1, h1, by simp [simplify_eq_structural r h hwf, hr], ?_⟩
  intro h2
  rcases simplifyStructural_result r h r1 h1 hr with
    ⟨p, st, e, t, rfl, ht⟩ | ⟨p, a, b, e, rfl⟩ | ⟨q, p1, st1, e1, p2, st2, e2, e, rfl, d1, d2⟩
  · exact ⟨_, _, SimplifyVisitor.simplify_Step p st e h2 t ht, rfl⟩
  · exact ⟨_, _, SimplifyVisitor.simplify_Or p a b e h2, rfl⟩
  · exact ⟨_, _, SimplifyVisitor.simplify_dense_dense q p1 p2 st1 st2 e e1 e2 h2 d1 d2, rfl⟩

theorem simplify_idempotent_witness :
    exAndAA.onHeap 3 ∧ exAndAA.levelsInRange ∧
    ∃ r1 h1, simplify (some exAndAA) 3 = some (some r1, h1) ∧
      ∀ h2, ∃ r2 h3, simplify (some r1) h2 = some (some r2, h3) ∧ r2.shape = r1.shape :=
  ⟨by decide, by decide, simplify_idempotent exAndAA 3 (by decide) (by decide)⟩

theorem MergeRuleNode.onHeap_right (p : Nat) (a b : MergeRuleNode) (e : Expr) (h : Nat)
    (hwf : (MergeRuleNode.And p a b e).onHeap h) : b.onHeap h :=
  ⟨fun x hx y hy => hwf.1 x (by simp [MergeRuleNode.nodes, hx]) y
      (by simp [MergeRuleNode.nodes, hy]),
    fun x hx => hwf.2 x (by simp [MergeRuleNode.nodes, hx])⟩

theorem MergeRuleNode.sizeOf_le_of_mem (r x : MergeRuleNode) (hx : x ∈ r.nodes) :
    sizeOf x ≤ sizeOf r := by
  induction r with
  | Step p st e =>
    simp only [MergeRuleNode.nodes, List.mem_singleton] at hx
    rw [hx]
  | And p a b e iha ihb =>
    simp only [MergeRuleNode.nodes, List.mem_cons, List.mem_append] at hx
    rcases hx with hx | hx | hx
    · rw [hx]
    · have := iha hx
      simp only [MergeRuleNode.And.sizeOf_spec]
      omega
    · have := ihb hx
      simp only [MergeRuleNode.And.sizeOf_spec]
      omega
  | Or p a b e iha ihb =>
    simp only [MergeRuleNode.nodes, List.mem_cons, List.mem_append] at hx
    rcases hx with hx | hx | hx
    · rw [hx]
    · have := iha hx
      simp only [MergeRuleNode.Or.sizeOf_spec]
      omega
    · have := ihb hx
      simp only [MergeRuleNode.Or.sizeOf_spec]
      omega

/-- Swapping the operands of a live `And` node gives a live graph again. -/
theorem MergeRuleNode.onHeap_swap (p : Nat) (a b : MergeRuleNode) (e : Expr) (h : Nat)
    (hwf : (MergeRuleNode.And p a b e).onHeap h) : (MergeRuleNode.And p b a e).onHeap h := by
  have hroot : MergeRuleNode.And p a b e ∈ (MergeRuleNode.And p a b e).nodes :=
    MergeRuleNode.self_mem_nodes _
  have hin : ∀ x, x ∈ a.nodes ∨ x ∈ b.nodes → x ∈ (MergeRuleNode.And p a b e).nodes := by
    intro x hx
    simp only [MergeRuleNode.nodes, List.mem_cons, List.mem_append]
    exact Or.inr hx
  have hne : ∀ x, x ∈ a.nodes ∨ x ∈ b.nodes → x.ptr ≠ p := by
    intro x hx hp
    have hxe : x = MergeRuleNode.And p a b e := hwf.1 x (hin x hx) _ hroot hp
    have hsz : sizeOf x ≤ sizeOf a ∨ sizeOf x ≤ sizeOf b :=
      hx.imp (MergeRuleNode.sizeOf_le_of_mem a x) (MergeRuleNode.sizeOf_le_of_mem b x)
    rw [hxe] at hsz
    simp only [MergeRuleNode.And.sizeOf_spec] at hsz
    omega
  constructor
  · intro x hx y hy hxy
    simp only [MergeRuleNode.nodes, List.mem_cons, List.mem_append] at hx hy
    rcases hx with hx | hx
    · rcases hy with hy | hy
      · rw [hx, hy]
      · exact absurd (by rw [← hxy, hx]; rfl) (hne y hy.symm)
    · rcases hy with hy | hy
      · exact absurd (by rw [hxy, hy]; rfl) (hne x hx.symm)
      · exact hwf.1 x (hin x hx.symm) y (hin y hy.symm) hxy
  · intro x hx
    simp only [MergeRuleNode.nodes, List.mem_cons, List.mem_append] at hx
    rcases hx with hx | hx
    · rw [hx]
      have hp : (MergeRuleNode.And p a b e).ptr < h := hwf.2 _ hroot
      exact hp
    · exact hwf.2 x (hin x hx.symm)

theorem simplifyStructural_of_simplify (r r' : MergeRuleNode) (h h' : Nat) (hwf : r.onHeap h)
    (hs : simplify (some r) h = some (some r', h')) :
    simplifyStructural r h = some (r', h') := by
  rw [simplify_eq_structural r h hwf] at hs
  cases hr : simplifyStructural r h with
  | none => simp [hr] at hs
  | some pr =>
    obtain ⟨x, y⟩ := pr
    simp only [hr, Option.map_some', Option.some.injEq, Prod.mk.injEq] at hs
    rw [hs.1, hs.2]

/-- C9: a dense operand of an `And` is dropped on either side.  For a `Step` leaf
`d` whose level type is `Dense` and a rule `s` whose simplification `s'` is not a
dense step, where `And(d, s)` is a graph of live heap objects, simplifying
`And(d, s)` and simplifying `And(s, d)` both return `s'`, the very result of
simplifying `s`. -/
theorem simplify_And_drops_dense (p pd : Nat) (std : TensorPathStep) (ed e : Expr)
    (s s' : MergeRuleNode) (h h' : Nat)
    (hd : std.levelType = some LevelType.Dense)
    (hwf : (MergeRuleNode.And p (.Step pd std ed) s e).onHeap h)
    (hs : simplify (some s) h = some (some s', h'))
    (hnd : s'.isDenseStep = false) :
    simplify (some (.And p (.Step pd std ed) s e)) h = some (some s', h') ∧
    simplify (some (.And p s (.Step pd std ed) e)) h = some (some s', h') := by
  have hss : simplifyStructural s h = some (s', h') :=
    simplifyStructural_of_simplify s s' h h' (MergeRuleNode.onHeap_right _ _ _ _ _ hwf) hs
  have hdd : (MergeRuleNode.Step pd std ed).isDenseStep = true := by
    simp [MergeRuleNode.isDenseStep, hd]
  constructor
  · rw [simplify_eq_structural _ h hwf]
    simp [simplifyStructural, hd, hss, hnd]
  · rw [simplify_eq_structural _ h (MergeRuleNode.onHeap_swap _ _ _ _ _ hwf)]
    simp [simplifyStructural, hd, hss, hnd, hdd]

theorem simplify_And_drops_dense_witness :
    exStepA.levelType = some LevelType.Dense ∧ exAndAB.onHeap 3 ∧
    simplify (some (.Step 1 exStepB exReadB)) 3 = some (some (.Step 1 exStepB exReadB), 3) ∧
    MergeRuleNode.isDenseStep (.Step 1 exStepB exReadB) = false ∧
    simplify (some (.And 2 (.Step 0 exStepA exReadA) (.Step 1 exStepB exReadB)
        (.Mul exReadA exReadB))) 3 = some (some (.Step 1 exStepB exReadB), 3) ∧
    simplify (some (.And 2 (.Step 1 exStepB exReadB) (.Step 0 exStepA exReadA)
        (.Mul exReadA exReadB))) 3 = some (some (.Step 1 exStepB exReadB), 3) :=
  ⟨by decide, by decide, by decide, by decide,
    simplify_And_drops_dense 2 0 exStepA exReadA (.Mul exReadA exReadB)
      (.Step 1 exStepB exReadB) (.Step 1 exStepB exReadB) 3 3
      (by decide) (by decide) (by decide) (by decide)⟩

/-- C7: the rule built for `B(i) * C(i)`, both operands sparse, is simplified to
the step of `C` alone: the step of `B`, whose level type is `Sparse`, is not among
the steps of the simplified rule. -/
theorem simplify_drops_sparse_operand :
    MergeRule.make (.Mul exReadB exReadC) exI exSchedule 0 = some (some exAndBC, 3) ∧
    exAndBC.onHeap 3 ∧
    exStepB ∈ exAndBC.stepLeaves ∧
    exStepB.levelType = some LevelType.Sparse ∧
    simplify (some exAndBC) 3 = some (some (.Step 1 exStepC exReadC), 3) ∧
    MergeRule.getSteps (some (.Step 1 exStepC exReadC)) = some [exStepC] ∧
    exStepB ∉ [exStepC] := by
  decide

/-! ## The builder on whole expressions -/

theorem MergeRule.make_Add_bind (v : Var) (sch : IterationSchedule) (a b : Expr) (h : Nat) :
    MergeRule.make (.Add a b) v sch h =
      (MergeRule.make a v sch h).bind fun pa =>
        (MergeRule.make b v sch pa.2).bind fun pb =>
          (ComputeMergeRule.createOrRule pa.1 pb.1 (.Add a b) ⟨none, pb.2⟩).map
            fun s => (s.mergeRule, s.heap) := by
  cases ha : MergeRule.make a v sch h with
  | none =>
    simp only [MergeRule.make, ComputeMergeRule.computeMergeRule, Option.map_map,
      Option.map_eq_none'] at ha
    simp [MergeRule.make, ComputeMergeRule.computeMergeRule, ComputeMergeRule.visit, ha]
  | some pa =>
    obtain ⟨ra, h1⟩ := pa
    cases hb : MergeRule.make b v sch h1 with
    | none =>
      simp only [MergeRule.make, ComputeMergeRule.computeMergeRule, Option.map_map,
        Option.map_eq_none'] at hb
      simp only [MergeRule.make, ComputeMergeRule.computeMergeRule, Option.map_map,
        Option.map_eq_some', Function.comp] at ha
      obtain ⟨s1, hs1, e1⟩ := ha
      simp only [ComputeMergeRule.takeRule, Prod.mk.injEq] at e1
      have t1 : ComputeMergeRule.takeRule s1 = (ra, ⟨none, h1⟩) := by
        simp [ComputeMergeRule.takeRule, e1.1, e1.2]
      simp [MergeRule.make, ComputeMergeRule.computeMergeRule, ComputeMergeRule.visit, hs1,
        t1, hb]
    | some pb =>
      obtain ⟨rb, h2⟩ := pb
      simp [MergeRule.make_Add v sch a b h h1 h2 ra rb ha hb, hb]

theorem MergeRule.make_Sub_bind (v : Var) (sch : IterationSchedule) (a b : Expr) (h : Nat) :
    MergeRule.make (.Sub a b) v sch h =
      (MergeRule.make a v sch h).bind fun pa =>
        (MergeRule.make b v sch pa.2).bind fun pb =>
          (ComputeMergeRule.createOrRule pa.1 pb.1 (.Sub a b) ⟨none, pb.2⟩).map
            fun s => (s.mergeRule, s.heap) := by
  cases ha : MergeRule.make a v sch h with
  | none =>
    simp only [MergeRule.make, ComputeMergeRule.computeMergeRule, Option.map_map,
      Option.map_eq_none'] at ha
    simp [MergeRule.make, ComputeMergeRule.computeMergeRule, ComputeMergeRule.visit, ha]
  | some pa =>
    obtain ⟨ra, h1⟩ := pa
    cases hb : MergeRule.make b v sch h1 with
    | none =>
      simp only [MergeRule.make, ComputeMergeRule.computeMergeRule, Option.map_map,
        Option.map_eq_none'] at hb
      simp only [MergeRule.make, ComputeMergeRule.computeMergeRule, Option.map_map,
        Option.map_eq_some', Function.comp] at ha
      obtain ⟨s1, hs1, e1⟩ := ha
      simp only [ComputeMergeRule.takeRule, Prod.mk.injEq] at e1
      have t1 : ComputeMergeRule.takeRule s1 = (ra, ⟨none, h1⟩) := by
        simp [ComputeMergeRule.takeRule, e1.1, e1.2]
      simp [MergeRule.make, ComputeMergeRule.computeMergeRule, ComputeMergeRule.visit, hs1,
        t1, hb]
    | some pb =>
      obtain ⟨rb, h2⟩ := pb
      simp [MergeRule.make_Sub v sch a b h h1 h2 ra rb ha hb, hb]

theorem MergeRule.make_Mul_bind (v : Var) (sch : IterationSchedule) (a b : Expr) (h : Nat) :
    MergeRule.make (.Mul a b) v sch h =
      (MergeRule.make a v sch h).bind fun pa =>
        (MergeRule.make b v sch pa.2).bind fun pb =>
          (ComputeMergeRule.createAndRule pa.1 pb.1 (.Mul a b) ⟨none, pb.2⟩).map
            fun s => (s.mergeRule, s.heap) := by
  cases ha : MergeRule.make a v sch h with
  | none =>
    simp only [MergeRule.make, ComputeMergeRule.computeMergeRule, Option.map_map,
      Option.map_eq_none'] at ha
    simp [MergeRule.make, ComputeMergeRule.computeMergeRule, ComputeMergeRule.visit, ha]
  | some pa =>
    obtain ⟨ra, h1⟩ := pa
    cases hb : MergeRule.make b v sch h1 with
    | none =>
      simp only [MergeRule.make, ComputeMergeRule.computeMergeRule, Option.map_map,
        Option.map_eq_none'] at hb
      simp only [MergeRule.make, ComputeMergeRule.computeMergeRule, Option.map_map,
        Option.map_eq_some', Function.comp] at ha
      obtain ⟨s1, hs1, e1⟩ := ha
      simp only [ComputeMergeRule.takeRule, Prod.mk.injEq] at e1
      have t1 : ComputeMergeRule.takeRule s1 = (ra, ⟨none, h1⟩) := by
        simp [ComputeMergeRule.takeRule, e1.1, e1.2]
      simp [MergeRule.make, ComputeMergeRule.computeMergeRule, ComputeMergeRule.visit, hs1,
        t1, hb]
    | some pb =>
      obtain ⟨rb, h2⟩ := pb
      simp [MergeRule.make_Mul v sch a b h h1 h2 ra rb ha hb, hb]

theorem MergeRule.make_Div_bind (v : Var) (sch : IterationSchedule) (a b : Expr) (h : Nat) :
    MergeRule.make (.Div a b) v sch h =
      (MergeRule.make a v sch h).bind fun pa =>
        (MergeRule.make b v sch pa.2).bind fun pb =>
          (ComputeMergeRule.createAndRule pa.1 pb.1 (.Div a b) ⟨none, pb.2⟩).map
            fun s => (s.mergeRule, s.heap) := by
  cases ha : MergeRule.make a v sch h with
  | none =>
    simp only [MergeRule.make, ComputeMergeRule.computeMergeRule, Option.map_map,
      Option.map_eq_none'] at ha
    simp [MergeRule.make, ComputeMergeRule.computeMergeRule, ComputeMergeRule.visit, ha]
  | some pa =>
    obtain ⟨ra, h1⟩ := pa
    cases hb : MergeRule.make b v sch h1 with
    | none =>
      simp only [MergeRule.make, ComputeMergeRule.computeMergeRule, Option.map_map,
        Option.map_eq_none'] at hb
      simp only [MergeRule.make, ComputeMergeRule.computeMergeRule, Option.map_map,
        Option.map_eq_some', Function.comp] at ha
      obtain ⟨s1, hs1, e1⟩ := ha
      simp only [ComputeMergeRule.takeRule, Prod.mk.injEq] at e1
      have t1 : ComputeMergeRule.takeRule s1 = (ra, ⟨none, h1⟩) := by
        simp [ComputeMergeRule.takeRule, e1.1, e1.2]
      simp [MergeRule.make, ComputeMergeRule.computeMergeRule, ComputeMergeRule.visit, hs1,
        t1, hb]
    | some pb =>
      obtain ⟨rb, h2⟩ := pb
      simp [MergeRule.make_Div v sch a b h h1 h2 ra rb ha hb, hb]

theorem ComputeMergeRule.createOrRule_steps (ra rb : MergeRule) (node : Expr) (h : Nat) :
    ∃ r h', (ComputeMergeRule.createOrRule ra rb node ⟨none, h⟩).map
        (fun s => (s.mergeRule, s.heap)) = some (r, h') ∧
      r.stepLeaves = ra.stepLeaves ++ rb.stepLeaves := by
  cases ra <;> cases rb <;>
    simp [ComputeMergeRule.createOrRule, MergeRule.defined, Or.make, MergeRule.stepLeaves,
      MergeRuleNode.stepLeaves]

theorem ComputeMergeRule.createAndRule_steps (ra rb : MergeRule) (node : Expr) (h : Nat) :
    ∃ r h', (ComputeMergeRule.createAndRule ra rb node ⟨none, h⟩).map
        (fun s => (s.mergeRule, s.heap)) = some (r, h') ∧
      r.stepLeaves = ra.stepLeaves ++ rb.stepLeaves := by
  cases ra <;> cases rb <;>
    simp [ComputeMergeRule.createAndRule, MergeRule.defined, And.make, MergeRule.stepLeaves,
      MergeRuleNode.stepLeaves]

theorem IterationSchedule.covers_left (sch : IterationSchedule) (v : Var) (a b e : Expr)
    (he : e.readLeaves = a.readLeaves ++ b.readLeaves) (hc : sch.covers v e) :
    sch.covers v a := by
  intro r hr
  exact hc r (by rw [he]; exact List.mem_append_left _ hr)

theorem IterationSchedule.covers_right (sch : IterationSchedule) (v : Var) (a b e : Expr)
    (he : e.readLeaves = a.readLeaves ++ b.readLeaves) (hc : sch.covers v e) :
    sch.covers v b := by
  intro r hr
  exact hc r (by rw [he]; exact List.mem_append_right _ hr)

/-- On an expression of read, additive and multiplicative nodes and a schedule
consistent with it, the builder returns, and the steps of the rule it returns are
the steps of the read leaves the variable indexes, in the order of the leaves. -/
theorem MergeRule.make_stepLeaves (v : Var) (sch : IterationSchedule) (e : Expr) :
    e.supported = true → sch.covers v e → ∀ h, ∃ r h', MergeRule.make e v sch h = some (r, h') ∧
      r.stepLeaves = ((e.readLeaves.filter (Expr.indexedBy v)).map (sch.stepOf v)) := by
  induction e with
  | Read t iv =>
    intro _ hc h
    by_cases hv : v ∈ iv
    · have hp : v ∈ (sch.getTensorPath (.Read t iv)).vars :=
        hc _ (by simp [Expr.readLeaves]) (by simp [Expr.indexedBy, util.contains, hv])
      refine ⟨some (.Step h (sch.stepOf v (.Read t iv)) (.Read t iv)), h + 1, ?_, ?_⟩
      · simp [MergeRule.make, ComputeMergeRule.computeMergeRule, ComputeMergeRule.visit,
          util.contains, hv, util.locate_eq_indexOf _ _ hp, Step.make,
          ComputeMergeRule.takeRule, IterationSchedule.stepOf]
      · simp [MergeRule.stepLeaves, MergeRuleNode.stepLeaves, Expr.readLeaves, Expr.indexedBy,
          util.contains, hv]
    · refine ⟨none, h, ?_, ?_⟩
      · simp [MergeRule.make, ComputeMergeRule.computeMergeRule, ComputeMergeRule.visit,
          util.contains, hv, ComputeMergeRule.takeRule]
      · simp [MergeRule.stepLeaves, Expr.readLeaves, Expr.indexedBy, util.contains, hv]
  | Add a b iha ihb =>
    intro hs hc h
    simp only [Expr.supported, Bool.and_eq_true] at hs
    obtain ⟨ra, h1, ea, sa⟩ := iha hs.1 (sch.covers_left v a b (.Add a b) rfl hc) h
    obtain ⟨rb, h2, eb, sb⟩ := ihb hs.2 (sch.covers_right v a b (.Add a b) rfl hc) h1
    obtain ⟨r, h', er, sr⟩ := ComputeMergeRule.createOrRule_steps ra rb (.Add a b) h2
    exact ⟨r, h', by simp [MergeRule.make_Add_bind, ea, eb, er], by
      simp [sr, sa, sb, Expr.readLeaves]⟩
  | Sub a b iha ihb =>
    intro hs hc h
    simp only [Expr.supported, Bool.and_eq_true] at hs
    obtain ⟨ra, h1, ea, sa⟩ := iha hs.1 (sch.covers_left v a b (.Sub a b) rfl hc) h
    obtain ⟨rb, h2, eb, sb⟩ := ihb hs.2 (sch.covers_right v a b (.Sub a b) rfl hc) h1
    obtain ⟨r, h', er, sr⟩ := ComputeMergeRule.createOrRule_steps ra rb (.Sub a b) h2
    exact ⟨r, h', by simp [MergeRule.make_Sub_bind, ea, eb, er], by
      simp [sr, sa, sb, Expr.readLeaves]⟩
  | Mul a b iha ihb =>
    intro hs hc h
    simp only [Expr.supported, Bool.and_eq_true] at hs
    obtain ⟨ra, h1, ea, sa⟩ := iha hs.1 (sch.covers_left v a b (.Mul a b) rfl hc) h
    obtain ⟨rb, h2, eb, sb⟩ := ihb hs.2 (sch.covers_right v a b (.Mul a b) rfl hc) h1
    obtain ⟨r, h', er, sr⟩ := ComputeMergeRule.createAndRule_steps ra rb (.Mul a b) h2
    exact ⟨r, h', by simp [MergeRule.make_Mul_bind, ea, eb, er], by
      simp [sr, sa, sb, Expr.readLeaves]⟩
  | Div a b iha ihb =>
    intro hs hc h
    simp only [Expr.supported, Bool.and_eq_true] at hs
    obtain ⟨ra, h1, ea, sa⟩ := iha hs.1 (sch.covers_left v a b (.Div a b) rfl hc) h
    obtain ⟨rb, h2, eb, sb⟩ := ihb hs.2 (sch.covers_right v a b (.Div a b) rfl hc) h1
    obtain ⟨r, h', er, sr⟩ := ComputeMergeRule.createAndRule_steps ra rb (.Div a b) h2
    exact ⟨r, h', by simp [MergeRule.make_Div_bind, ea, eb, er], by
      simp [sr, sa, sb, Expr.readLeaves]⟩
  | Other k =>
    intro hs
    simp [Expr.supported] at hs

theorem MergeRuleNode.stepLeaves_ne_nil (n : MergeRuleNode) : n.stepLeaves ≠ [] := by
  induction n with
  | Step p st e => simp [MergeRuleNode.stepLeaves]
  | And p a b e iha _ => simp [MergeRuleNode.stepLeaves, iha]
  | Or p a b e iha _ => simp [MergeRuleNode.stepLeaves, iha]

theorem Expr.readLeaves_is_Read (e r : Expr) (hr : r ∈ e.readLeaves) :
    ∃ t iv, r = .Read t iv := by
  induction e with
  | Read t iv =>
    simp only [Expr.readLeaves, List.mem_singleton] at hr
    exact ⟨t, iv, hr⟩
  | Add a b iha ihb =>
    simp only [Expr.readLeaves, List.mem_append] at hr
    exact hr.elim iha ihb
  | Sub a b iha ihb =>
    simp only [Expr.readLeaves, List.mem_append] at hr
    exact hr.elim iha ihb
  | Mul a b iha ihb =>
    simp only [Expr.readLeaves, List.mem_append] at hr
    exact hr.elim iha ihb
  | Div a b iha ihb =>
    simp only [Expr.readLeaves, List.mem_append] at hr
    exact hr.elim iha ihb
  | Other k => simp [Expr.readLeaves] at hr

/-- C11: for an expression made of read leaves and `Add`, `Sub`, `Mul`, `Div`
nodes, on a schedule whose tensor paths list the variable for the reads it
indexes, `MergeRule::make` returns, and the rule it returns is undefined exactly
when no read leaf of the expression is indexed by the variable. -/
theorem make_undefined_iff (e : Expr) (v : Var) (schedule : IterationSchedule) (h : Nat)
    (hs : e.supported = true) (hc : schedule.covers v e) :
    ∃ r h', MergeRule.make e v schedule h = some (r, h') ∧
      (r = none ↔ ∀ t iv, Expr.Read t iv ∈ e.readLeaves → v ∉ iv) := by
  obtain ⟨r, h', er, sr⟩ := MergeRule.make_stepLeaves v schedule e hs hc h
  refine ⟨r, h', er, ?_⟩
  have hnil : r = none ↔ r.stepLeaves = [] := by
    cases r with
    | none => simp [MergeRule.stepLeaves]
    | some n => simp [MergeRule.stepLeaves, MergeRuleNode.stepLeaves_ne_nil]
  rw [hnil, sr, List.map_eq_nil_iff, List.filter_eq_nil_iff]
  constructor
  · intro hall t iv hm hv
    exact hall _ hm (by simp [Expr.indexedBy, util.contains, hv])
  · intro hall x hx hi
    obtain ⟨t, iv, rfl⟩ := Expr.readLeaves_is_Read e x hx
    exact hall t iv hx (by simpa [Expr.indexedBy, util.contains] using hi)

theorem make_undefined_iff_witness :
    (exMixed.supported = true ∧ exSchedule.covers exI exMixed ∧
      ∃ r h', MergeRule.make exMixed exI exSchedule 0 = some (r, h') ∧
        (r = none ↔ ∀ t iv, Expr.Read t iv ∈ exMixed.readLeaves → exI ∉ iv)) ∧
    (exReadBj.supported = true ∧ exSchedule.covers exI exReadBj ∧
      ∃ r h', MergeRule.make exReadBj exI exSchedule 0 = some (r, h') ∧
        (r = none ↔ ∀ t iv, Expr.Read t iv ∈ exReadBj.readLeaves → exI ∉ iv)) :=
  ⟨⟨by decide, by decide, make_undefined_iff exMixed exI exSchedule 0 (by decide) (by decide)⟩,
   ⟨by decide, by decide,
    make_undefined_iff exReadBj exI exSchedule 0 (by decide) (by decide)⟩⟩

/-- C12: the builder does not deduplicate reads.  For an expression made of read
leaves and `Add`, `Sub`, `Mul`, `Div` nodes, on a schedule consistent with it,
`MergeRule::make` returns; the rule it returns is defined exactly when the variable
indexes some read leaf, and then the steps `getSteps` reads off that rule are the
steps of the read leaves the variable indexes, one entry for each such leaf, equal
entries included, in the left-to-right order of the leaves. -/
theorem getSteps_make (e : Expr) (v : Var) (schedule : IterationSchedule) (h : Nat)
    (hs : e.supported = true) (hc : schedule.covers v e) :
    ∃ r h', MergeRule.make e v schedule h = some (r, h') ∧
      ((∃ n, r = some n) ↔ e.readLeaves.filter (Expr.indexedBy v) ≠ []) ∧
      (∀ n, r = some n →
        MergeRule.getSteps (some n) =
          some ((e.readLeaves.filter (Expr.indexedBy v)).map (schedule.stepOf v)) ∧
        n.numStepLeaves = (e.readLeaves.filter (Expr.indexedBy v)).length) := by
  obtain ⟨r, h', er, sr⟩ := MergeRule.make_stepLeaves v schedule e hs hc h
  refine ⟨r, h', er, ?_, ?_⟩
  · cases r with
    | none =>
      simp only [MergeRule.stepLeaves] at sr
      have hnil : e.readLeaves.filter (Expr.indexedBy v) = [] :=
        List.map_eq_nil_iff.mp sr.symm
      simp [hnil]
    | some n =>
      simp only [MergeRule.stepLeaves] at sr
      constructor
      · intro _ hnil
        rw [hnil] at sr
        exact MergeRuleNode.stepLeaves_ne_nil n sr
      · intro _
        exact ⟨n, rfl⟩
  · intro n hn
    rw [hn] at sr
    simp only [MergeRule.stepLeaves] at sr
    constructor
    · simp [MergeRule.getSteps, GetPathsVisitor.visit_eq, sr]
    · rw [← MergeRuleNode.length_stepLeaves, sr, List.length_map]

theorem getSteps_make_witness :
    exSquare.supported = true ∧ exSchedule.covers exI exSquare ∧
    exSquare.readLeaves.filter (Expr.indexedBy exI) = [exReadA, exReadA] ∧
    (exSquare.readLeaves.filter (Expr.indexedBy exI)).map (exSchedule.stepOf exI) =
      [exStepA, exStepA] ∧
    MergeRule.make exSquare exI exSchedule 0 = some (some exAndAA, 3) ∧
    MergeRule.getSteps (some exAndAA) = some [exStepA, exStepA] ∧
    exAndAA.numStepLeaves = 2 ∧
    ∃ r h', MergeRule.make exSquare exI exSchedule 0 = some (r, h') ∧
      ((∃ n, r = some n) ↔ exSquare.readLeaves.filter (Expr.indexedBy exI) ≠ []) ∧
      (∀ n, r = some n →
        MergeRule.getSteps (some n) =
          some ((exSquare.readLeaves.filter (Expr.indexedBy exI)).map
            (exSchedule.stepOf exI)) ∧
        n.numStepLeaves = (exSquare.readLeaves.filter (Expr.indexedBy exI)).length) :=
  ⟨by decide, by decide, by decide, by decide, by decide, by decide, by decide,
    getSteps_make exSquare exI exSchedule 0 (by decide) (by decide)⟩

/-! ## The two pipelines -/

theorem MergeRule.make_Read_indexed (t : Tensor) (iv : List Var) (v : Var)
    (sch : IterationSchedule) (h : Nat) (hv : v ∈ iv)
    (hp : v ∈ (sch.getTensorPath (.Read t iv)).vars) :
    MergeRule.make (.Read t iv) v sch h =
      some (some (.Step h (sch.stepOf v (.Read t iv)) (.Read t iv)), h + 1) := by
  simp [MergeRule.make, ComputeMergeRule.computeMergeRule, ComputeMergeRule.visit,
    util.contains, hv, util.locate_eq_indexOf _ _ hp, Step.make, ComputeMergeRule.takeRule,
    IterationSchedule.stepOf]

/-- C13: the intersection pipeline.  For two reads both indexed by the variable,
the first resolving to a `Dense` level and the second to a level that is not
`Dense`, the rule built for their product is the `And` of their two steps, the
simplifier returns the step of the second read alone, and `getSteps` of the
simplified rule is the one-element list of that step. -/
theorem intersection_pipeline (tA tB : Tensor) (ivA ivB : List Var) (v : Var)
    (schedule : IterationSchedule) (h : Nat) (t : LevelType)
    (hvA : v ∈ ivA) (hvB : v ∈ ivB)
    (hpA : v ∈ (schedule.getTensorPath (.Read tA ivA)).vars)
    (hpB : v ∈ (schedule.getTensorPath (.Read tB ivB)).vars)
    (hdA : (schedule.stepOf v (.Read tA ivA)).levelType = some LevelType.Dense)
    (hdB : (schedule.stepOf v (.Read tB ivB)).levelType = some t)
    (ht : t ≠ LevelType.Dense) :
    MergeRule.make (.Mul (.Read tA ivA) (.Read tB ivB)) v schedule h =
      some (some (.And (h + 2)
        (.Step h (schedule.stepOf v (.Read tA ivA)) (.Read tA ivA))
        (.Step (h + 1) (schedule.stepOf v (.Read tB ivB)) (.Read tB ivB))
        (.Mul (.Read tA ivA) (.Read tB ivB))), h + 3) ∧
    simplify (some (.And (h + 2)
        (.Step h (schedule.stepOf v (.Read tA ivA)) (.Read tA ivA))
        (.Step (h + 1) (schedule.stepOf v (.Read tB ivB)) (.Read tB ivB))
        (.Mul (.Read tA ivA) (.Read tB ivB)))) (h + 3) =
      some (some (.Step (h + 1) (schedule.stepOf v (.Read tB ivB)) (.Read tB ivB)), h + 3) ∧
    MergeRule.getSteps
        (some (.Step (h + 1) (schedule.stepOf v (.Read tB ivB)) (.Read tB ivB))) =
      some [schedule.stepOf v (.Read tB ivB)] := by
  refine ⟨?_, ?_, ?_⟩
  · simp [MergeRule.make_Mul_bind, MergeRule.make_Read_indexed _ _ _ _ _ hvA hpA,
      MergeRule.make_Read_indexed _ _ _ _ _ hvB hpB, ComputeMergeRule.createAndRule,
      MergeRule.defined, And.make]
  · simp [simplify, SimplifyVisitor.simplify, SimplifyVisitor.visit, SimplifyVisitor.takeRule,
      SimplifyVisitor.andRule, SimplifyVisitor.contains, hdA, hdB, ht, MergeRuleNode.ptr,
      List.mem_insert_iff]
  · simp [MergeRule.getSteps, GetPathsVisitor.visit]

theorem intersection_pipeline_witness :
    exI ∈ [exI] ∧ exI ∈ (exSchedule.getTensorPath exReadA).vars ∧
    exI ∈ (exSchedule.getTensorPath exReadB).vars ∧
    (exSchedule.stepOf exI exReadA).levelType = some LevelType.Dense ∧
    (exSchedule.stepOf exI exReadB).levelType = some LevelType.Sparse ∧
    LevelType.Sparse ≠ LevelType.Dense ∧
    MergeRule.make (.Mul exReadA exReadB) exI exSchedule 0 = some (some exAndAB, 3) ∧
    simplify (some exAndAB) 3 = some (some (.Step 1 exStepB exReadB), 3) ∧
    MergeRule.getSteps (some (.Step 1 exStepB exReadB)) = some [exStepB] :=
  ⟨by decide, by decide, by decide, by decide, by decide, by decide,
    intersection_pipeline exA exB [exI] [exI] exI exSchedule 0 LevelType.Sparse
      (by decide) (by decide) (by decide) (by decide) (by decide) (by decide) (by decide)⟩

/-- C14: the union pipeline.  For two reads both indexed by the variable, whatever
levels they resolve to, the rule built for their sum is the `Or` of their two
steps, the simplifier returns that rule as it is, and `getSteps` of the result
lists the step of the first read and then the step of the second. -/
theorem union_pipeline (tA tB : Tensor) (ivA ivB : List Var) (v : Var)
    (schedule : IterationSchedule) (h : Nat)
    (hvA : v ∈ ivA) (hvB : v ∈ ivB)
    (hpA : v ∈ (schedule.getTensorPath (.Read tA ivA)).vars)
    (hpB : v ∈ (schedule.getTensorPath (.Read tB ivB)).vars) :
    MergeRule.make (.Add (.Read tA ivA) (.Read tB ivB)) v schedule h =
      some (some (.Or (h + 2)
        (.Step h (schedule.stepOf v (.Read tA ivA)) (.Read tA ivA))
        (.Step (h + 1) (schedule.stepOf v (.Read tB ivB)) (.Read tB ivB))
        (.Add (.Read tA ivA) (.Read tB ivB))), h + 3) ∧
    simplify (some (.Or (h + 2)
        (.Step h (schedule.stepOf v (.Read tA ivA)) (.Read tA ivA))
        (.Step (h + 1) (schedule.stepOf v (.Read tB ivB)) (.Read tB ivB))
        (.Add (.Read tA ivA) (.Read tB ivB)))) (h + 3) =
      some (some (.Or (h + 2)
        (.Step h (schedule.stepOf v (.Read tA ivA)) (.Read tA ivA))
        (.Step (h + 1) (schedule.stepOf v (.Read tB ivB)) (.Read tB ivB))
        (.Add (.Read tA ivA) (.Read tB ivB))), h + 3) ∧
    MergeRule.getSteps (some (.Or (h + 2)
        (.Step h (schedule.stepOf v (.Read tA ivA)) (.Read tA ivA))
        (.Step (h + 1) (schedule.stepOf v (.Read tB ivB)) (.Read tB ivB))
        (.Add (.Read tA ivA) (.Read tB ivB)))) =
      some [schedule.stepOf v (.Read tA ivA), schedule.stepOf v (.Read tB ivB)] := by
  refine ⟨?_, ?_, ?_⟩
  · simp [MergeRule.make_Add_bind, MergeRule.make_Read_indexed _ _ _ _ _ hvA hpA,
      MergeRule.make_Read_indexed _ _ _ _ _ hvB hpB, ComputeMergeRule.createOrRule,
      MergeRule.defined, Or.make]
  · exact SimplifyVisitor.simplify_Or _ _ _ _ _
  · simp [MergeRule.getSteps, GetPathsVisitor.visit]

theorem union_pipeline_witness :
    exI ∈ [exI] ∧ exI ∈ (exSchedule.getTensorPath exReadA).vars ∧
    exI ∈ (exSchedule.getTensorPath exReadB).vars ∧
    MergeRule.make (.Add exReadA exReadB) exI exSchedule 0 =
      some (some (.Or 2 (.Step 0 exStepA exReadA) (.Step 1 exStepB exReadB)
        (.Add exReadA exReadB)), 3) ∧
    simplify (some (.Or 2 (.Step 0 exStepA exReadA) (.Step 1 exStepB exReadB)
        (.Add exReadA exReadB))) 3 =
      some (some (.Or 2 (.Step 0 exStepA exReadA) (.Step 1 exStepB exReadB)
        (.Add exReadA exReadB)), 3) ∧
    MergeRule.getSteps (some (.Or 2 (.Step 0 exStepA exReadA) (.Step 1 exStepB exReadB)
        (.Add exReadA exReadB))) = some [exStepA, exStepB] :=
  ⟨by decide, by decide, by decide,
    union_pipeline exA exB [exI] [exI] exI exSchedule 0
      (by decide) (by decide) (by decide) (by decide)⟩

/-! ## The expression a node carries -/

theorem ComputeMergeRule.createOrRule_map (ra rb : MergeRule) (node : Expr) (h : Nat) :
    (ComputeMergeRule.createOrRule ra rb node ⟨none, h⟩).map (fun s => (s.mergeRule, s.heap)) =
      some (match ra, rb with
        | some x, some y => (some (.Or h x y node), h + 1)
        | some x, none => (some x, h)
        | none, some y => (some y, h)
        | none, none => (none, h)) := by
  cases ra <;> cases rb <;> simp [ComputeMergeRule.createOrRule, MergeRule.defined, Or.make]

theorem ComputeMergeRule.createAndRule_map (ra rb : MergeRule) (node : Expr) (h : Nat) :
    (ComputeMergeRule.createAndRule ra rb node ⟨none, h⟩).map (fun s => (s.mergeRule, s.heap)) =
      some (match ra, rb with
        | some x, some y => (some (.And h x y node), h + 1)
        | some x, none => (some x, h)
        | none, some y => (some y, h)
        | none, none => (none, h)) := by
  cases ra <;> cases rb <;> simp [ComputeMergeRule.createAndRule, MergeRule.defined, And.make]

theorem Expr.self_mem_subExprs (e : Expr) : e ∈ e.subExprs := by
  cases e <;> simp [Expr.subExprs]

/-- Every node of a rule the builder returns carries a sub-expression of the
expression, of the kind the node is derived from, and is itself what the builder
returned for that sub-expression. -/
theorem MergeRule.make_nodes (v : Var) (sch : IterationSchedule) (e : Expr) :
    ∀ h r h', MergeRule.make e v sch h = some (some r, h') →
      ∀ n ∈ r.nodes, n.getExpr ∈ e.subExprs ∧ n.carriesItsKind v ∧
        ∃ h0 h1, MergeRule.make n.getExpr v sch h0 = some (some n, h1) := by
  induction e with
  | Read t iv =>
    intro h r h' hm n hn
    by_cases hv : v ∈ iv
    · cases hl : util.locate (sch.getTensorPath (.Read t iv)).vars v with
      | none =>
        simp [MergeRule.make, ComputeMergeRule.computeMergeRule, ComputeMergeRule.visit,
          util.contains, hv, hl] at hm
      | some i =>
        have hm' := hm
        simp only [MergeRule.make, ComputeMergeRule.computeMergeRule, ComputeMergeRule.visit,
          util.contains, hv, hl, Step.make, ComputeMergeRule.takeRule, decide_True,
          Bool.not_true, Bool.false_eq_true, if_false, Option.map_some', Option.some.injEq,
          Prod.mk.injEq] at hm
        rw [← hm.1] at hn hm'
        simp only [MergeRuleNode.nodes, List.mem_singleton] at hn
        rw [hn]
        exact ⟨by simp [MergeRuleNode.getExpr, Expr.subExprs], ⟨t, iv, rfl, hv⟩, h, h', hm'⟩
    · simp [MergeRule.make, ComputeMergeRule.computeMergeRule, ComputeMergeRule.visit,
        util.contains, hv, ComputeMergeRule.takeRule] at hm
  | Add a b iha ihb =>
    intro h r h' hm
    simp only [MergeRule.make_Add_bind, ComputeMergeRule.createOrRule_map, Option.bind_eq_some,
      Option.some.injEq] at hm
    obtain ⟨⟨ra, h1⟩, ea, ⟨rb, h2⟩, eb, er⟩ := hm
    have liftA : ∀ x, x ∈ a.subExprs → x ∈ (Expr.Add a b).subExprs := fun x hx => by
      simp [Expr.subExprs, hx]
    have liftB : ∀ x, x ∈ b.subExprs → x ∈ (Expr.Add a b).subExprs := fun x hx => by
      simp [Expr.subExprs, hx]
    cases ra with
    | none =>
      cases rb with
      | none => simp at er
      | some y =>
        simp only [Prod.mk.injEq, Option.some.injEq] at er
        rw [← er.1]
        intro n hn
        obtain ⟨m1, m2, m3⟩ := ihb h1 y h2 eb n hn
        exact ⟨liftB _ m1, m2, m3⟩
    | some x =>
      cases rb with
      | none =>
        simp only [Prod.mk.injEq, Option.some.injEq] at er
        rw [← er.1]
        intro n hn
        obtain ⟨m1, m2, m3⟩ := iha h x h1 ea n hn
        exact ⟨liftA _ m1, m2, m3⟩
      | some y =>
        simp only [Prod.mk.injEq, Option.some.injEq] at er
        have hmk : MergeRule.make (.Add a b) v sch h = some (some r, h') := by
          simp [MergeRule.make_Add_bind, ComputeMergeRule.createOrRule_map, ea, eb, er.1, er.2]
        rw [← er.1]
        intro n hn
        simp only [MergeRuleNode.nodes, List.mem_cons, List.mem_append] at hn
        rcases hn with hn | hn | hn
        · rw [hn]
          refine ⟨by simp [MergeRuleNode.getExpr, Expr.subExprs], ⟨a, b, Or.inl rfl⟩, h, h', ?_⟩
          rw [← er.1] at hmk
          exact hmk
        · obtain ⟨m1, m2, m3⟩ := iha h x h1 ea n hn
          exact ⟨liftA _ m1, m2, m3⟩
        · obtain ⟨m1, m2, m3⟩ := ihb h1 y h2 eb n hn
          exact ⟨liftB _ m1, m2, m3⟩
  | Sub a b iha ihb =>
    intro h r h' hm
    simp only [MergeRule.make_Sub_bind, ComputeMergeRule.createOrRule_map, Option.bind_eq_some,
      Option.some.injEq] at hm
    obtain ⟨⟨ra, h1⟩, ea, ⟨rb, h2⟩, eb, er⟩ := hm
    have liftA : ∀ x, x ∈ a.subExprs → x ∈ (Expr.Sub a b).subExprs := fun x hx => by
      simp [Expr.subExprs, hx]
    have liftB : ∀ x, x ∈ b.subExprs → x ∈ (Expr.Sub a b).subExprs := fun x hx => by
      simp [Expr.subExprs, hx]
    cases ra with
    | none =>
      cases rb with
      | none => simp at er
      | some y =>
        simp only [Prod.mk.injEq, Option.some.injEq] at er
        rw [← er.1]
        intro n hn
        obtain ⟨m1, m2, m3⟩ := ihb h1 y h2 eb n hn
        exact ⟨liftB _ m1, m2, m3⟩
    | some x =>
      cases rb with
      | none =>
        simp only [Prod.mk.injEq, Option.some.injEq] at er
        rw [← er.1]
        intro n hn
        obtain ⟨m1, m2, m3⟩ := iha h x h1 ea n hn
        exact ⟨liftA _ m1, m2, m3⟩
      | some y =>
        simp only [Prod.mk.injEq, Option.some.injEq] at er
        have hmk : MergeRule.make (.Sub a b) v sch h = some (some r, h') := by
          simp [MergeRule.make_Sub_bind, ComputeMergeRule.createOrRule_map, ea, eb, er.1, er.2]
        rw [← er.1]
        intro n hn
        simp only [MergeRuleNode.nodes, List.mem_cons, List.mem_append] at hn
        rcases hn with hn | hn | hn
        · rw [hn]
          refine ⟨by simp [MergeRuleNode.getExpr, Expr.subExprs], ⟨a, b, Or.inr rfl⟩, h, h', ?_⟩
          rw [← er.1] at hmk
          exact hmk
        · obtain ⟨m1, m2, m3⟩ := iha h x h1 ea n hn
          exact ⟨liftA _ m1, m2, m3⟩
        · obtain ⟨m1, m2, m3⟩ := ihb h1 y h2 eb n hn
          exact ⟨liftB _ m1, m2, m3⟩
  | Mul a b iha ihb =>
    intro h r h' hm
    simp only [MergeRule.make_Mul_bind, ComputeMergeRule.createAndRule_map, Option.bind_eq_some,
      Option.some.injEq] at hm
    obtain ⟨⟨ra, h1⟩, ea, ⟨rb, h2⟩, eb, er⟩ := hm
    have liftA : ∀ x, x ∈ a.subExprs → x ∈ (Expr.Mul a b).subExprs := fun x hx => by
      simp [Expr.subExprs, hx]
    have liftB : ∀ x, x ∈ b.subExprs → x ∈ (Expr.Mul a b).subExprs := fun x hx => by
      simp [Expr.subExprs, hx]
    cases ra with
    | none =>
      cases rb with
      | none => simp at er
      | some y =>
        simp only [Prod.mk.injEq, Option.some.injEq] at er
        rw [← er.1]
        intro n hn
        obtain ⟨m1, m2, m3⟩ := ihb h1 y h2 eb n hn
        exact ⟨liftB _ m1, m2, m3⟩
    | some x =>
      cases rb with
      | none =>
        simp only [Prod.mk.injEq, Option.some.injEq] at er
        rw [← er.1]
        intro n hn
        obtain ⟨m1, m2, m3⟩ := iha h x h1 ea n hn
        exact ⟨liftA _ m1, m2, m3⟩
      | some y =>
        simp only [Prod.mk.injEq, Option.some.injEq] at er
        have hmk : MergeRule.make (.Mul a b) v sch h = some (some r, h') := by
          simp [MergeRule.make_Mul_bind, ComputeMergeRule.createAndRule_map, ea, eb, er.1, er.2]
        rw [← er.1]
        intro n hn
        simp only [MergeRuleNode.nodes, List.mem_cons, List.mem_append] at hn
        rcases hn with hn | hn | hn
        · rw [hn]
          refine ⟨by simp [MergeRuleNode.getExpr, Expr.subExprs], ⟨a, b, Or.inl rfl⟩, h, h', ?_⟩
          rw [← er.1] at hmk
          exact hmk
        · obtain ⟨m1, m2, m3⟩ := iha h x h1 ea n hn
          exact ⟨liftA _ m1, m2, m3⟩
        · obtain ⟨m1, m2, m3⟩ := ihb h1 y h2 eb n hn
          exact ⟨liftB _ m1, m2, m3⟩
  | Div a b iha ihb =>
    intro h r h' hm
    simp only [MergeRule.make_Div_bind, ComputeMergeRule.createAndRule_map, Option.bind_eq_some,
      Option.some.injEq] at hm
    obtain ⟨⟨ra, h1⟩, ea, ⟨rb, h2⟩, eb, er⟩ := hm
    have liftA : ∀ x, x ∈ a.subExprs → x ∈ (Expr.Div a b).subExprs := fun x hx => by
      simp [Expr.subExprs, hx]
    have liftB : ∀ x, x ∈ b.subExprs → x ∈ (Expr.Div a b).subExprs := fun x hx => by
      simp [Expr.subExprs, hx]
    cases ra with
    | none =>
      cases rb with
      | none => simp at er
      | some y =>
        simp only [Prod.mk.injEq, Option.some.injEq] at er
        rw [← er.1]
        intro n hn
        obtain ⟨m1, m2, m3⟩ := ihb h1 y h2 eb n hn
        exact ⟨liftB _ m1, m2, m3⟩
    | some x =>
      cases rb with
      | none =>
        simp only [Prod.mk.injEq, Option.some.injEq] at er
        rw [← er.1]
        intro n hn
        obtain ⟨m1, m2, m3⟩ := iha h x h1 ea n hn
        exact ⟨liftA _ m1, m2, m3⟩
      | some y =>
        simp only [Prod.mk.injEq, Option.some.injEq] at er
        have hmk : MergeRule.make (.Div a b) v sch h = some (some r, h') := by
          simp [MergeRule.make_Div_bind, ComputeMergeRule.createAndRule_map, ea, eb, er.1, er.2]
        rw [← er.1]
        intro n hn
        simp only [MergeRuleNode.nodes, List.mem_cons, List.mem_append] at hn
        rcases hn with hn | hn | hn
        · rw [hn]
          refine ⟨by simp [MergeRuleNode.getExpr, Expr.subExprs], ⟨a, b, Or.inr rfl⟩, h, h', ?_⟩
          rw [← er.1] at hmk
          exact hmk
        · obtain ⟨m1, m2, m3⟩ := iha h x h1 ea n hn
          exact ⟨liftA _ m1, m2, m3⟩
        · obtain ⟨m1, m2, m3⟩ := ihb h1 y h2 eb n hn
          exact ⟨liftB _ m1, m2, m3⟩
  | Other k =>
    intro h r h' hm
    simp [MergeRule.make, ComputeMergeRule.computeMergeRule, ComputeMergeRule.visit,
      ComputeMergeRule.unsupported] at hm

/-- The structure of the rule the builder returns does not depend on the state of
the allocator. -/
theorem MergeRule.make_shape (v : Var) (sch : IterationSchedule) (e : Expr) :
    ∀ h r h', MergeRule.make e v sch h = some (r, h') →
      ∀ h0, ∃ m h1, MergeRule.make e v sch h0 = some (m, h1) ∧
        m.map MergeRuleNode.shape = r.map MergeRuleNode.shape := by
  induction e with
  | Read t iv =>
    intro h r h' hm h0
    by_cases hv : v ∈ iv
    · cases hl : util.locate (sch.getTensorPath (.Read t iv)).vars v with
      | none =>
        simp [MergeRule.make, ComputeMergeRule.computeMergeRule, ComputeMergeRule.visit,
          util.contains, hv, hl] at hm
      | some i =>
        simp only [MergeRule.make, ComputeMergeRule.computeMergeRule, ComputeMergeRule.visit,
          util.contains, hv, hl, Step.make, ComputeMergeRule.takeRule, decide_True,
          Bool.not_true, Bool.false_eq_true, if_false, Option.map_some', Option.some.injEq,
          Prod.mk.injEq] at hm
        refine ⟨some (.Step h0 ((sch.getTensorPath (.Read t iv)).getStep i) (.Read t iv)),
          h0 + 1, ?_, ?_⟩
        · simp [MergeRule.make, ComputeMergeRule.computeMergeRule, ComputeMergeRule.visit,
            util.contains, hv, hl, Step.make, ComputeMergeRule.takeRule]
        · rw [← hm.1]
          simp [MergeRuleNode.shape]
    · simp only [MergeRule.make, ComputeMergeRule.computeMergeRule, ComputeMergeRule.visit,
        util.contains, hv, ComputeMergeRule.takeRule, decide_False, Bool.not_false, if_true,
        Option.map_some', Option.some.injEq, Prod.mk.injEq] at hm
      refine ⟨none, h0, ?_, ?_⟩
      · simp [MergeRule.make, ComputeMergeRule.computeMergeRule, ComputeMergeRule.visit,
          util.contains, hv, ComputeMergeRule.takeRule]
      · rw [← hm.1]
  | Add a b iha ihb =>
    intro h r h' hm h0
    simp only [MergeRule.make_Add_bind, ComputeMergeRule.createOrRule_map, Option.bind_eq_some,
      Option.some.injEq] at hm
    obtain ⟨⟨ra, h1⟩, ea, ⟨rb, h2⟩, eb, er⟩ := hm
    obtain ⟨ma, k1, fa, sa⟩ := iha h ra h1 ea h0
    obtain ⟨mb, k2, fb, sb⟩ := ihb h1 rb h2 eb k1
    simp only [MergeRule.make_Add_bind, ComputeMergeRule.createOrRule_map, fa, fb, Option.some_bind]
    simp only at er eb
    cases ra <;> cases rb <;> cases ma <;> cases mb <;>
      simp only [Prod.mk.injEq] at er <;>
      simp only [Option.map_some', Option.map_none', Option.some.injEq, reduceCtorEq] at sa sb <;>
      simp [← er.1, MergeRuleNode.shape, sa, sb]
  | Sub a b iha ihb =>
    intro h r h' hm h0
    simp only [MergeRule.make_Sub_bind, ComputeMergeRule.createOrRule_map, Option.bind_eq_some,
      Option.some.injEq] at hm
    obtain ⟨⟨ra, h1⟩, ea, ⟨rb, h2⟩, eb, er⟩ := hm
    obtain ⟨ma, k1, fa, sa⟩ := iha h ra h1 ea h0
    obtain ⟨mb, k2, fb, sb⟩ := ihb h1 rb h2 eb k1
    simp only [MergeRule.make_Sub_bind, ComputeMergeRule.createOrRule_map, fa, fb, Option.some_bind]
    simp only at er eb
    cases ra <;> cases rb <;> cases ma <;> cases mb <;>
      simp only [Prod.mk.injEq] at er <;>
      simp only [Option.map_some', Option.map_none', Option.some.injEq, reduceCtorEq] at sa sb <;>
      simp [← er.1, MergeRuleNode.shape, sa, sb]
  | Mul a b iha ihb =>
    intro h r h' hm h0
    simp only [MergeRule.make_Mul_bind, ComputeMergeRule.createAndRule_map, Option.bind_eq_some,
      Option.some.injEq] at hm
    obtain ⟨⟨ra, h1⟩, ea, ⟨rb, h2⟩, eb, er⟩ := hm
    obtain ⟨ma, k1, fa, sa⟩ := iha h ra h1 ea h0
    obtain ⟨mb, k2, fb, sb⟩ := ihb h1 rb h2 eb k1
    simp only [MergeRule.make_Mul_bind, ComputeMergeRule.createAndRule_map, fa, fb, Option.some_bind]
    simp only at er eb
    cases ra <;> cases rb <;> cases ma <;> cases mb <;>
      simp only [Prod.mk.injEq] at er <;>
      simp only [Option.map_some', Option.map_none', Option.some.injEq, reduceCtorEq] at sa sb <;>
      simp [← er.1, MergeRuleNode.shape, sa, sb]
  | Div a b iha ihb =>
    intro h r h' hm h0
    simp only [MergeRule.make_Div_bind, ComputeMergeRule.createAndRule_map, Option.bind_eq_some,
      Option.some.injEq] at hm
    obtain ⟨⟨ra, h1⟩, ea, ⟨rb, h2⟩, eb, er⟩ := hm
    obtain ⟨ma, k1, fa, sa⟩ := iha h ra h1 ea h0
    obtain ⟨mb, k2, fb, sb⟩ := ihb h1 rb h2 eb k1
    simp only [MergeRule.make_Div_bind, ComputeMergeRule.createAndRule_map, fa, fb, Option.some_bind]
    simp only at er eb
    cases ra <;> cases rb <;> cases ma <;> cases mb <;>
      simp only [Prod.mk.injEq] at er <;>
      simp only [Option.map_some', Option.map_none', Option.some.injEq, reduceCtorEq] at sa sb <;>
      simp [← er.1, MergeRuleNode.shape, sa, sb]
  | Other k =>
    intro h r h' hm
    simp [MergeRule.make, ComputeMergeRule.computeMergeRule, ComputeMergeRule.visit,
      ComputeMergeRule.unsupported] at hm

/-- C15: the expression a node carries.  Every node `n` of a rule that
`MergeRule::make` returns for an expression `e` carries a sub-expression of `e` of
the kind the node is derived from: a `Step` a read leaf the variable indexes, an
`Or` an `Add` or `Sub` node, an `And` a `Mul` or `Div` node.  The rule rooted at
`n` is what the builder returns for that sub-expression: the very node from the
allocator state in which the sub-expression was visited, and a rule of the same
structure from any other state. -/
theorem make_source_expr (e : Expr) (v : Var) (schedule : IterationSchedule) (h h' : Nat)
    (r : MergeRuleNode) (hm : MergeRule.make e v schedule h = some (some r, h')) :
    ∀ n ∈ r.nodes, n.getExpr ∈ e.subExprs ∧ n.carriesItsKind v ∧
      (∃ h0 h1, MergeRule.make n.getExpr v schedule h0 = some (some n, h1)) ∧
      (∀ h0, ∃ m h1, MergeRule.make n.getExpr v schedule h0 = some (some m, h1) ∧
        m.shape = n.shape) := by
  intro n hn
  obtain ⟨m1, m2, h0, h1, m3⟩ := MergeRule.make_nodes v schedule e h r h' hm n hn
  refine ⟨m1, m2, ⟨h0, h1, m3⟩, ?_⟩
  intro k0
  obtain ⟨m, k1, f, sh⟩ := MergeRule.make_shape v schedule n.getExpr h0 (some n) h1 m3 k0
  cases m with
  | none => simp at sh
  | some m' =>
    simp only [Option.map_some', Option.some.injEq] at sh
    exact ⟨m', k1, f, sh⟩

theorem make_source_expr_witness :
    MergeRule.make exMixed exI exSchedule 0 = some (some exAndAC, 3) ∧
    ∀ n ∈ exAndAC.nodes, n.getExpr ∈ exMixed.subExprs ∧ n.carriesItsKind exI ∧
      (∃ h0 h1, MergeRule.make n.getExpr exI exSchedule h0 = some (some n, h1)) ∧
      (∀ h0, ∃ m h1, MergeRule.make n.getExpr exI exSchedule h0 = some (some m, h1) ∧
        m.shape = n.shape) :=
  ⟨by decide, make_source_expr exMixed exI exSchedule 0 3 exAndAC (by decide)⟩

/-! ## Node kinds without a `visit` override -/

theorem Expr.not_supported_of_mem (k : Nat) (e : Expr) (hk : Expr.Other k ∈ e.subExprs) :
    e.supported = false := by
  induction e with
  | Read t iv => simp [Expr.subExprs] at hk
  | Other j => rfl
  | Add a b iha ihb =>
    simp only [Expr.subExprs, List.mem_cons, List.mem_append, reduceCtorEq, false_or] at hk
    rcases hk with hk | hk
    · simp [Expr.supported, iha hk]
    · simp [Expr.supported, ihb hk]
  | Sub a b iha ihb =>
    simp only [Expr.subExprs, List.mem_cons, List.mem_append, reduceCtorEq, false_or] at hk
    rcases hk with hk | hk
    · simp [Expr.supported, iha hk]
    · simp [Expr.supported, ihb hk]
  | Mul a b iha ihb =>
    simp only [Expr.subExprs, List.mem_cons, List.mem_append, reduceCtorEq, false_or] at hk
    rcases hk with hk | hk
    · simp [Expr.supported, iha hk]
    · simp [Expr.supported, ihb hk]
  | Div a b iha ihb =>
    simp only [Expr.subExprs, List.mem_cons, List.mem_append, reduceCtorEq, false_or] at hk
    rcases hk with hk | hk
    · simp [Expr.supported, iha hk]
    · simp [Expr.supported, ihb hk]

theorem ComputeMergeRule.visit_unsupported (v : Var) (sch : IterationSchedule) (e : Expr) :
    e.supported = false → ∀ s, ComputeMergeRule.visit v sch e s = none := by
  induction e with
  | Read t iv => intro hu; simp [Expr.supported] at hu
  | Other j => intro _ s; simp [ComputeMergeRule.visit, ComputeMergeRule.unsupported]
  | Add a b iha ihb =>
    intro hu s
    simp only [Expr.supported, Bool.and_eq_false_iff] at hu
    simp only [ComputeMergeRule.visit]
    cases hva : ComputeMergeRule.visit v sch a s with
    | none => rfl
    | some s1 =>
      rcases hu with hu | hu
      · rw [iha hu s] at hva
        simp at hva
      · simp [ihb hu]
  | Sub a b iha ihb =>
    intro hu s
    simp only [Expr.supported, Bool.and_eq_false_iff] at hu
    simp only [ComputeMergeRule.visit]
    cases hva : ComputeMergeRule.visit v sch a s with
    | none => rfl
    | some s1 =>
      rcases hu with hu | hu
      · rw [iha hu s] at hva
        simp at hva
      · simp [ihb hu]
  | Mul a b iha ihb =>
    intro hu s
    simp only [Expr.supported, Bool.and_eq_false_iff] at hu
    simp only [ComputeMergeRule.visit]
    cases hva : ComputeMergeRule.visit v sch a s with
    | none => rfl
    | some s1 =>
      rcases hu with hu | hu
      · rw [iha hu s] at hva
        simp at hva
      · simp [ihb hu]
  | Div a b iha ihb =>
    intro hu s
    simp only [Expr.supported, Bool.and_eq_false_iff] at hu
    simp only [ComputeMergeRule.visit]
    cases hva : ComputeMergeRule.visit v sch a s with
    | none => rfl
    | some s1 =>
      rcases hu with hu | hu
      · rw [iha hu s] at hva
        simp at hva
      · simp [ihb hu]

theorem ComputeMergeRule.visit_supported (v : Var) (sch : IterationSchedule) (e : Expr)
    (hs : e.supported = true) (hc : sch.covers v e) (s : ComputeMergeRule) :
    ∃ s', ComputeMergeRule.visit v sch e s = some s' := by
  obtain ⟨r, h', er, -⟩ := MergeRule.make_stepLeaves v sch e hs hc s.heap
  cases s with
  | mk m h =>
    rw [ComputeMergeRule.visit_stale v sch e m h]
    simp only [MergeRule.make, ComputeMergeRule.computeMergeRule, Option.map_map,
      Option.map_eq_some'] at er
    obtain ⟨s', hs', -⟩ := er
    exact ⟨s', hs'⟩

theorem ComputeMergeRule.diagnostic_unsupported (v : Var) (sch : IterationSchedule)
    (e : Expr) : e.supported = false → sch.covers v e → ∀ s,
      ∃ k, ComputeMergeRule.diagnostic v sch e s = some (.Other k) ∧
        Expr.Other k ∈ e.subExprs := by
  induction e with
  | Read t iv => intro hu; simp [Expr.supported] at hu
  | Other j =>
    intro _ _ s
    exact ⟨j, by simp [ComputeMergeRule.diagnostic], by simp [Expr.subExprs]⟩
  | Add a b iha ihb =>
    intro hu hc s
    have hca := sch.covers_left v a b (.Add a b) rfl hc
    have hcb := sch.covers_right v a b (.Add a b) rfl hc
    simp only [ComputeMergeRule.diagnostic]
    cases hva : ComputeMergeRule.visit v sch a s with
    | none =>
      have hua : a.supported = false := by
        cases hsa : a.supported with
        | false => rfl
        | true =>
          obtain ⟨s', hs'⟩ := ComputeMergeRule.visit_supported v sch a hsa hca s
          rw [hs'] at hva
          simp at hva
      obtain ⟨k, dk, mk⟩ := iha hua hca s
      exact ⟨k, dk, by simp [Expr.subExprs, mk]⟩
    | some s1 =>
      have hub : b.supported = false := by
        cases hsa : a.supported with
        | false =>
          rw [ComputeMergeRule.visit_unsupported v sch a hsa s] at hva
          simp at hva
        | true => simpa [Expr.supported, hsa] using hu
      obtain ⟨k, dk, mk⟩ := ihb hub hcb (ComputeMergeRule.takeRule s1).2
      exact ⟨k, dk, by simp [Expr.subExprs, mk]⟩
  | Sub a b iha ihb =>
    intro hu hc s
    have hca := sch.covers_left v a b (.Sub a b) rfl hc
    have hcb := sch.covers_right v a b (.Sub a b) rfl hc
    simp only [ComputeMergeRule.diagnostic]
    cases hva : ComputeMergeRule.visit v sch a s with
    | none =>
      have hua : a.supported = false := by
        cases hsa : a.supported with
        | false => rfl
        | true =>
          obtain ⟨s', hs'⟩ := ComputeMergeRule.visit_supported v sch a hsa hca s
          rw [hs'] at hva
          simp at hva
      obtain ⟨k, dk, mk⟩ := iha hua hca s
      exact ⟨k, dk, by simp [Expr.subExprs, mk]⟩
    | some s1 =>
      have hub : b.supported = false := by
        cases hsa : a.supported with
        | false =>
          rw [ComputeMergeRule.visit_unsupported v sch a hsa s] at hva
          simp at hva
        | true => simpa [Expr.supported, hsa] using hu
      obtain ⟨k, dk, mk⟩ := ihb hub hcb (ComputeMergeRule.takeRule s1).2
      exact ⟨k, dk, by simp [Expr.subExprs, mk]⟩
  | Mul a b iha ihb =>
    intro hu hc s
    have hca := sch.covers_left v a b (.Mul a b) rfl hc
    have hcb := sch.covers_right v a b (.Mul a b) rfl hc
    simp only [ComputeMergeRule.diagnostic]
    cases hva : ComputeMergeRule.visit v sch a s with
    | none =>
      have hua : a.supported = false := by
        cases hsa : a.supported with
        | false => rfl
        | true =>
          obtain ⟨s', hs'⟩ := ComputeMergeRule.visit_supported v sch a hsa hca s
          rw [hs'] at hva
          simp at hva
      obtain ⟨k, dk, mk⟩ := iha hua hca s
      exact ⟨k, dk, by simp [Expr.subExprs, mk]⟩
    | some s1 =>
      have hub : b.supported = false := by
        cases hsa : a.supported with
        | false =>
          rw [ComputeMergeRule.visit_unsupported v sch a hsa s] at hva
          simp at hva
        | true => simpa [Expr.supported, hsa] using hu
      obtain ⟨k, dk, mk⟩ := ihb hub hcb (ComputeMergeRule.takeRule s1).2
      exact ⟨k, dk, by simp [Expr.subExprs, mk]⟩
  | Div a b iha ihb =>
    intro hu hc s
    have hca := sch.covers_left v a b (.Div a b) rfl hc
    have hcb := sch.covers_right v a b (.Div a b) rfl hc
    simp only [ComputeMergeRule.diagnostic]
    cases hva : ComputeMergeRule.visit v sch a s with
    | none =>
      have hua : a.supported = false := by
        cases hsa : a.supported with
        | false => rfl
        | true =>
          obtain ⟨s', hs'⟩ := ComputeMergeRule.visit_supported v sch a hsa hca s
          rw [hs'] at hva
          simp at hva
      obtain ⟨k, dk, mk⟩ := iha hua hca s
      exact ⟨k, dk, by simp [Expr.subExprs, mk]⟩
    | some s1 =>
      have hub : b.supported = false := by
        cases hsa : a.supported with
        | false =>
          rw [ComputeMergeRule.visit_unsupported v sch a hsa s] at hva
          simp at hva
        | true => simpa [Expr.supported, hsa] using hu
      obtain ⟨k, dk, mk⟩ := ihb hub hcb (ComputeMergeRule.takeRule s1).2
      exact ⟨k, dk, by simp [Expr.subExprs, mk]⟩

/-- C16: an expression that contains a node of a kind other than read, additive
and multiplicative is rejected.  The run of `MergeRule::make` ends without a rule,
defined or undefined, and, on a schedule consistent with the reads of the
expression, the diagnostic names a sub-expression of that other kind. -/
theorem make_rejects_unsupported (e : Expr) (v : Var) (schedule : IterationSchedule)
    (h k : Nat) (hk : Expr.Other k ∈ e.subExprs) :
    MergeRule.make e v schedule h = none ∧
    (schedule.covers v e → ∃ j, ComputeMergeRule.diagnostic v schedule e ⟨none, h⟩ =
      some (.Other j) ∧ Expr.Other j ∈ e.subExprs) := by
  have hu := Expr.not_supported_of_mem k e hk
  constructor
  · simp [MergeRule.make, ComputeMergeRule.computeMergeRule,
      ComputeMergeRule.visit_unsupported v schedule e hu]
  · intro hc
    exact ComputeMergeRule.diagnostic_unsupported v schedule e hu hc ⟨none, h⟩

theorem make_rejects_unsupported_witness :
    Expr.Other 7 ∈ (Expr.Add exReadA (.Mul (.Other 7) exReadB)).subExprs ∧
    exSchedule.covers exI (Expr.Add exReadA (.Mul (.Other 7) exReadB)) ∧
    MergeRule.make (Expr.Add exReadA (.Mul (.Other 7) exReadB)) exI exSchedule 0 = none ∧
    ∃ j, ComputeMergeRule.diagnostic exI exSchedule
        (Expr.Add exReadA (.Mul (.Other 7) exReadB)) ⟨none, 0⟩ = some (.Other j) ∧
      Expr.Other j ∈ (Expr.Add exReadA (.Mul (.Other 7) exReadB)).subExprs :=
  ⟨by decide, by decide,
    (make_rejects_unsupported (Expr.Add exReadA (.Mul (.Other 7) exReadB)) exI exSchedule 0 7
      (by decide)).1,
    (make_rejects_unsupported (Expr.Add exReadA (.Mul (.Other 7) exReadB)) exI exSchedule 0 7
      (by decide)).2 (by decide)⟩

/-! ## Printing -/

theorem MergeRulePrinter.visit_append (stepText : TensorPathStep → String) (r : MergeRuleNode)
    (os : String) :
    MergeRulePrinter.visit stepText r os = os ++ MergeRulePrinter.visit stepText r "" := by
  induction r generalizing os with
  | Step p st e => simp [MergeRulePrinter.visit]
  | And p a b e iha ihb =>
    simp only [MergeRulePrinter.visit]
    rw [ihb (MergeRulePrinter.visit stepText a os ++ " ∧ "),
      ihb (MergeRulePrinter.visit stepText a "" ++ " ∧ "), iha os]
    simp only [String.append_assoc]
  | Or p a b e iha ihb =>
    simp only [MergeRulePrinter.visit]
    rw [ihb (MergeRulePrinter.visit stepText a os ++ " ∨ "),
      ihb (MergeRulePrinter.visit stepText a "" ++ " ∨ "), iha os]
    simp only [String.append_assoc]

/-- C17: printing.  An `And` is rendered as its left operand, then the text
`" ∧ "`, then its right operand; an `Or` likewise with `" ∨ "`; a `Step` as the
text of its path step; nothing else is written, in particular no parenthesis.  The
undefined rule is rendered as `"MergeRule()"`, a text that is the rendering of no
`And` and of no `Or`.  On a stream that already holds text, the rendering is
appended. -/
theorem render_rule (stepText : TensorPathStep → String) :
    (∀ p a b e, MergeRule.render stepText (some (.And p a b e)) =
      MergeRule.render stepText (some a) ++ " ∧ " ++ MergeRule.render stepText (some b)) ∧
    (∀ p a b e, MergeRule.render stepText (some (.Or p a b e)) =
      MergeRule.render stepText (some a) ++ " ∨ " ++ MergeRule.render stepText (some b)) ∧
    (∀ p st e, MergeRule.render stepText (some (.Step p st e)) = stepText st) ∧
    MergeRule.render stepText none = "MergeRule()" ∧
    (∀ p a b e, MergeRule.render stepText (some (.And p a b e)) ≠ "MergeRule()" ∧
      MergeRule.render stepText (some (.Or p a b e)) ≠ "MergeRule()") ∧
    (∀ r os, MergeRule.print stepText r os = os ++ MergeRule.render stepText r) := by
  have hAnd : ∀ p a b e, MergeRule.render stepText (some (.And p a b e)) =
      MergeRule.render stepText (some a) ++ " ∧ " ++ MergeRule.render stepText (some b) := by
    intro p a b e
    simp only [MergeRule.render, MergeRule.print, MergeRuleNode.print, MergeRulePrinter.visit]
    rw [MergeRulePrinter.visit_append]
  have hOr : ∀ p a b e, MergeRule.render stepText (some (.Or p a b e)) =
      MergeRule.render stepText (some a) ++ " ∨ " ++ MergeRule.render stepText (some b) := by
    intro p a b e
    simp only [MergeRule.render, MergeRule.print, MergeRuleNode.print, MergeRulePrinter.visit]
    rw [MergeRulePrinter.visit_append]
  refine ⟨hAnd, hOr, ?_, ?_, ?_, ?_⟩
  · intro p st e
    simp [MergeRule.render, MergeRule.print, MergeRuleNode.print, MergeRulePrinter.visit]
  · simp [MergeRule.render, MergeRule.print]
  · intro p a b e
    constructor
    · intro hEq
      have hmem : '∧' ∈ (MergeRule.render stepText (some (.And p a b e))).data := by
        rw [hAnd]
        simp [String.data_append]
      rw [hEq] at hmem
      exact absurd hmem (by decide)
    · intro hEq
      have hmem : '∨' ∈ (MergeRule.render stepText (some (.Or p a b e))).data := by
        rw [hOr]
        simp [String.data_append]
      rw [hEq] at hmem
      exact absurd hmem (by decide)
  · intro r os
    cases r with
    | none => simp [MergeRule.render, MergeRule.print]
    | some n =>
      simp only [MergeRule.render, MergeRule.print, MergeRuleNode.print]
      exact MergeRulePrinter.visit_append stepText n os

/-! ## The lookups in the dense set -/

/-- A lookup in the dense set answers whether the node is a dense step, as long as
the set only holds addresses of dense steps among the live objects `U`, the node
is one of these objects or was allocated after them, and a dense step that was
visited is in the set. -/
theorem SimplifyVisitor.contains_eq_isDenseStep (U : List MergeRuleNode) (h0 : Nat)
    (hU1 : ∀ x ∈ U, ∀ y ∈ U, x.ptr = y.ptr → x = y)
    (hU2 : ∀ x ∈ U, x.ptr < h0)
    (D : List Nat) (hD : ∀ p ∈ D, ∃ x ∈ U, x.ptr = p ∧ x.isDenseStep = true)
    (r : MergeRuleNode) (hr : r ∈ U ∨ h0 ≤ r.ptr)
    (hm : r.isDenseStep = true → r.ptr ∈ D) :
    SimplifyVisitor.contains D (some r) = r.isDenseStep := by
  cases hd : r.isDenseStep with
  | true => simpa [SimplifyVisitor.contains] using hm hd
  | false =>
    simp only [SimplifyVisitor.contains, decide_eq_false_iff_not]
    intro hmem
    have := SimplifyVisitor.dense_of_mem U h0 hU1 hU2 D hD r hr hmem
    simp [hd] at this

theorem SimplifyVisitor.lookups_sound (U : List MergeRuleNode) (h0 : Nat)
    (hU1 : ∀ x ∈ U, ∀ y ∈ U, x.ptr = y.ptr → x = y)
    (hU2 : ∀ x ∈ U, x.ptr < h0) (r : MergeRuleNode) :
    (∀ x ∈ r.nodes, x ∈ U) → ∀ s : SimplifyVisitor, h0 ≤ s.heap →
    (∀ p ∈ s.denseRules, ∃ x ∈ U, x.ptr = p ∧ x.isDenseStep = true) →
    ∀ D c, (D, c) ∈ SimplifyVisitor.lookups r s →
      (SimplifyVisitor.contains D c = true ↔ ∃ n, c = some n ∧ n.isDenseStep = true) := by
  induction r with
  | Step p st e =>
    intro _ s _ _ D c hm
    simp [SimplifyVisitor.lookups] at hm
  | Or p a b e _ _ =>
    intro _ s _ _ D c hm
    simp [SimplifyVisitor.lookups] at hm
  | And p a b e iha ihb =>
    intro hsub s hs hD D c hm
    have hsa : ∀ x ∈ a.nodes, x ∈ U := fun x hx =>
      hsub x (by simp [MergeRuleNode.nodes, hx])
    have hsb : ∀ x ∈ b.nodes, x ∈ U := fun x hx =>
      hsub x (by simp [MergeRuleNode.nodes, hx])
    simp only [SimplifyVisitor.lookups, List.mem_append] at hm
    rcases hm with hm | hm
    · exact iha hsa s hs hD D c hm
    · have ka := SimplifyVisitor.visit_eq_structural U h0 hU1 hU2 a hsa s hs hD
      cases hra : simplifyStructural a s.heap with
      | none =>
        rw [hra] at ka
        simp only at ka
        simp [ka] at hm
      | some pa =>
        obtain ⟨a', h1⟩ := pa
        rw [hra] at ka
        simp only at ka
        obtain ⟨D1, hva, hD1, hsub1, hle1, hres1, hmem1⟩ := ka
        simp only [hva, SimplifyVisitor.takeRule, List.mem_append] at hm
        rcases hm with hm | hm
        · exact ihb hsb ⟨D1, none, h1⟩ (le_trans hs hle1) hD1 D c hm
        · have kb := SimplifyVisitor.visit_eq_structural U h0 hU1 hU2 b hsb ⟨D1, none, h1⟩
            (le_trans hs hle1) hD1
          cases hrb : simplifyStructural b h1 with
          | none =>
            rw [hrb] at kb
            simp only at kb
            simp [kb] at hm
          | some pb =>
            obtain ⟨b', h2⟩ := pb
            rw [hrb] at kb
            simp only at kb
            obtain ⟨D2, hvb, hD2, hsub2, hle2, hres2, hmem2⟩ := kb
            have ca := SimplifyVisitor.contains_eq_isDenseStep U h0 hU1 hU2 D2 hD2 a'
              (hres1.imp id And.left) (fun hd => hsub2 _ (hmem1 hd))
            have cb := SimplifyVisitor.contains_eq_isDenseStep U h0 hU1 hU2 D2 hD2 b'
              (hres2.imp id And.left) hmem2
            simp only [hvb, List.mem_cons, Prod.mk.injEq, List.mem_singleton,
              List.not_mem_nil, or_false] at hm
            rcases hm with ⟨rfl, rfl⟩ | ⟨rfl, rfl⟩
            · rw [ca]; simp
            · rw [cb]; simp

/-- C18: the set of addresses agrees with the structural test.  On a rule that is
a graph of live heap objects, every lookup a run of `simplify` performs in
`denseRules` finds the simplified operand exactly when that operand is a `Step`
whose level type is `Dense`, and `simplify` returns what the set-free
`simplifyStructural` returns. -/
theorem dense_set_is_structural (r : MergeRuleNode) (h : Nat) (hwf : r.onHeap h) :
    (∀ D c, (D, c) ∈ SimplifyVisitor.lookups r ⟨[], none, h⟩ →
      (SimplifyVisitor.contains D c = true ↔ ∃ n, c = some n ∧ n.isDenseStep = true)) ∧
    simplify (some r) h = (simplifyStructural r h).map fun (r', h') => (some r', h') :=
  ⟨SimplifyVisitor.lookups_sound r.nodes h hwf.1 hwf.2 r (fun _ hx => hx) ⟨[], none, h⟩
      (le_refl _) (by simp),
    simplify_eq_structural r h hwf⟩

theorem dense_set_is_structural_witness :
    exAndAAB.onHeap 5 ∧
    (SimplifyVisitor.lookups exAndAAB ⟨[], none, 5⟩).length = 4 ∧
    (∀ D c, (D, c) ∈ SimplifyVisitor.lookups exAndAAB ⟨[], none, 5⟩ →
      (SimplifyVisitor.contains D c = true ↔ ∃ n, c = some n ∧ n.isDenseStep = true)) ∧
    simplify (some exAndAAB) 5 =
      (simplifyStructural exAndAAB 5).map fun (r', h') => (some r', h') :=
  ⟨by decide, by decide, dense_set_is_structural exAndAAB 5 (by decide)⟩

/-! ## What the simplifier returns -/

/-- What the simplifier returns is a `Step` of the rule, an `Or` of the rule, or a
fresh `And` of two dense steps of the rule; the nodes of the rule are taken in any
list `N` that holds them. -/
theorem simplifyStructural_result_mem (N : List MergeRuleNode) (r : MergeRuleNode) :
    (∀ x ∈ r.nodes, x ∈ N) → ∀ h r' h', simplifyStructural r h = some (r', h') →
      (∃ p st e, r' = .Step p st e ∧ r' ∈ N) ∨
      (∃ p a b e, r' = .Or p a b e ∧ r' ∈ N) ∨
      (∃ q d1 d2 e, r' = .And q d1 d2 e ∧ d1.isDenseStep = true ∧ d2.isDenseStep = true ∧
        d1 ∈ N ∧ d2 ∈ N) := by
  induction r with
  | Step p st e =>
    intro hN h r' h' hr
    simp only [simplifyStructural] at hr
    cases hl : st.levelType with
    | none => simp [hl] at hr
    | some t =>
      simp only [hl, Option.some.injEq, Prod.mk.injEq] at hr
      exact Or.inl ⟨p, st, e, hr.1.symm, by
        rw [← hr.1]; exact hN _ (MergeRuleNode.self_mem_nodes _)⟩
  | Or p a b e _ _ =>
    intro hN h r' h' hr
    simp only [simplifyStructural, Option.some.injEq, Prod.mk.injEq] at hr
    exact Or.inr (Or.inl ⟨p, a, b, e, hr.1.symm, by
      rw [← hr.1]; exact hN _ (MergeRuleNode.self_mem_nodes _)⟩)
  | And p a b e iha ihb =>
    intro hN h r' h' hr
    have hNa : ∀ x ∈ a.nodes, x ∈ N := fun x hx =>
      hN x (by simp [MergeRuleNode.nodes, hx])
    have hNb : ∀ x ∈ b.nodes, x ∈ N := fun x hx =>
      hN x (by simp [MergeRuleNode.nodes, hx])
    simp only [simplifyStructural] at hr
    cases ea : simplifyStructural a h with
    | none => simp [ea] at hr
    | some pa =>
      obtain ⟨a', h1⟩ := pa
      simp only [ea] at hr
      cases eb : simplifyStructural b h1 with
      | none => simp [eb] at hr
      | some pb =>
        obtain ⟨b', h2⟩ := pb
        simp only [eb] at hr
        have memA : a'.isDenseStep = true → a' ∈ N := by
          intro hd
          rcases iha hNa h a' h1 ea with ⟨_, _, _, _, hm⟩ | ⟨_, _, _, _, rfl, _⟩ |
            ⟨_, _, _, _, rfl, _⟩
          · exact hm
          · simp [MergeRuleNode.isDenseStep] at hd
          · simp [MergeRuleNode.isDenseStep] at hd
        have memB : b'.isDenseStep = true → b' ∈ N := by
          intro hd
          rcases ihb hNb h1 b' h2 eb with ⟨_, _, _, _, hm⟩ | ⟨_, _, _, _, rfl, _⟩ |
            ⟨_, _, _, _, rfl, _⟩
          · exact hm
          · simp [MergeRuleNode.isDenseStep] at hd
          · simp [MergeRuleNode.isDenseStep] at hd
        by_cases c1 : (a'.isDenseStep && b'.isDenseStep) = true
        · rw [if_pos c1] at hr
          simp only [Option.some.injEq, Prod.mk.injEq] at hr
          simp only [Bool.and_eq_true] at c1
          exact Or.inr (Or.inr ⟨h2, a', b', e, hr.1.symm, c1.1, c1.2, memA c1.1, memB c1.2⟩)
        · rw [if_neg c1] at hr
          by_cases c2 : b'.isDenseStep = true
          · rw [if_pos c2] at hr
            simp only [Option.some.injEq, Prod.mk.injEq] at hr
            rw [← hr.1]
            exact iha hNa h a' h1 ea
          · rw [if_neg c2] at hr
            simp only [Option.some.injEq, Prod.mk.injEq] at hr
            rw [← hr.1]
            exact ihb hNb h1 b' h2 eb

theorem MergeRuleNode.hasOr_of_mem (r : MergeRuleNode) (p : Nat) (a b : MergeRuleNode)
    (e : Expr) (hm : MergeRuleNode.Or p a b e ∈ r.nodes) : r.hasOr = true := by
  induction r with
  | Step q st e1 => simp [MergeRuleNode.nodes] at hm
  | Or q c d e1 _ _ => rfl
  | And q c d e1 ihc ihd =>
    simp only [MergeRuleNode.nodes, List.mem_cons, List.mem_append, reduceCtorEq,
      false_or] at hm
    rcases hm with hm | hm
    · simp [MergeRuleNode.hasOr, ihc hm]
    · simp [MergeRuleNode.hasOr, ihd hm]

/-- The steps of what the simplifier returns are a subsequence of the steps of the
rule. -/
theorem simplifyStructural_sublist (r : MergeRuleNode) :
    ∀ h r' h', simplifyStructural r h = some (r', h') →
      r'.stepLeaves.Sublist r.stepLeaves := by
  induction r with
  | Step p st e =>
    intro h r' h' hr
    simp only [simplifyStructural] at hr
    cases hl : st.levelType with
    | none => simp [hl] at hr
    | some t =>
      simp only [hl, Option.some.injEq, Prod.mk.injEq] at hr
      rw [← hr.1]
  | Or p a b e _ _ =>
    intro h r' h' hr
    simp only [simplifyStructural, Option.some.injEq, Prod.mk.injEq] at hr
    rw [← hr.1]
  | And p a b e iha ihb =>
    intro h r' h' hr
    simp only [simplifyStructural] at hr
    cases ea : simplifyStructural a h with
    | none => simp [ea] at hr
    | some pa =>
      obtain ⟨a', h1⟩ := pa
      simp only [ea] at hr
      cases eb : simplifyStructural b h1 with
      | none => simp [eb] at hr
      | some pb =>
        obtain ⟨b', h2⟩ := pb
        simp only [eb] at hr
        have sa := iha h a' h1 ea
        have sb := ihb h1 b' h2 eb
        by_cases c1 : (a'.isDenseStep && b'.isDenseStep) = true
        · rw [if_pos c1] at hr
          simp only [Option.some.injEq, Prod.mk.injEq] at hr
          rw [← hr.1]
          simp only [MergeRuleNode.stepLeaves]
          exact List.Sublist.append sa sb
        · rw [if_neg c1] at hr
          by_cases c2 : b'.isDenseStep = true
          · rw [if_pos c2] at hr
            simp only [Option.some.injEq, Prod.mk.injEq] at hr
            rw [← hr.1]
            simp only [MergeRuleNode.stepLeaves]
            exact sa.trans (List.sublist_append_left _ _)
          · rw [if_neg c2] at hr
            simp only [Option.some.injEq, Prod.mk.injEq] at hr
            rw [← hr.1]
            simp only [MergeRuleNode.stepLeaves]
            exact sb.trans (List.sublist_append_right _ _)

theorem MergeRule.getSteps_some (r : MergeRuleNode) :
    MergeRule.getSteps (some r) = some r.stepLeaves := by
  simp [MergeRule.getSteps, GetPathsVisitor.visit_eq]

theorem simplifyStructural_shape_steps (r r1 : MergeRuleNode) (h h1 : Nat)
    (hr : simplifyStructural r h = some (r1, h1)) (hno : r.hasOr = false) :
    r1.stepLeaves.length ≤ 2 := by
  rcases simplifyStructural_result_mem r.nodes r (fun _ hx => hx) h r1 h1 hr with
    ⟨p, st, e, rfl, _⟩ | ⟨p, a, b, e, rfl, hm⟩ | ⟨q, d1, d2, e, rfl, k1, k2, _, _⟩
  · simp [MergeRuleNode.stepLeaves]
  · rw [MergeRuleNode.hasOr_of_mem r p a b e hm] at hno
    simp at hno
  · cases d1 with
    | Step p1 st1 e1 =>
      cases d2 with
      | Step p2 st2 e2 => simp [MergeRuleNode.stepLeaves]
      | And _ _ _ _ => simp [MergeRuleNode.isDenseStep] at k2
      | Or _ _ _ _ => simp [MergeRuleNode.isDenseStep] at k2
    | And _ _ _ _ => simp [MergeRuleNode.isDenseStep] at k1
    | Or _ _ _ _ => simp [MergeRuleNode.isDenseStep] at k1

/-- C19: the shape of what the simplifier returns.  On a rule that is a graph of
live heap objects and whose visited steps all have a level, `simplify` returns a
`Step` node of the rule, an `Or` node of the rule, or a fresh `And` whose two
operands are dense `Step` nodes of the rule; so when the rule contains no `Or`,
`getSteps` of the simplified rule has at most two steps.  For three dense steps,
`And(And(d1, d2), d3)` is simplified to a fresh `And(d1, d2)` and
`And(d1, And(d2, d3))` to a fresh `And(d2, d3)`. -/
theorem simplify_result_shape :
    (∀ r h, MergeRuleNode.onHeap r h → r.levelsInRange →
      ∃ r1 h1, simplify (some r) h = some (some r1, h1) ∧
        ((∃ p st e, r1 = .Step p st e ∧ r1 ∈ r.nodes) ∨
          (∃ p a b e, r1 = .Or p a b e ∧ r1 ∈ r.nodes) ∨
          (∃ q d1 d2 e, r1 = .And q d1 d2 e ∧ d1.isDenseStep = true ∧
            d2.isDenseStep = true ∧ d1 ∈ r.nodes ∧ d2 ∈ r.nodes)) ∧
        (r.hasOr = false →
          ∃ steps, MergeRule.getSteps (some r1) = some steps ∧ steps.length ≤ 2)) ∧
    (∀ p q p1 p2 p3 st1 st2 st3 e e' e1 e2 e3 h,
      TensorPathStep.levelType st1 = some LevelType.Dense →
      TensorPathStep.levelType st2 = some LevelType.Dense →
      TensorPathStep.levelType st3 = some LevelType.Dense →
      MergeRuleNode.onHeap
        (.And p (.And q (.Step p1 st1 e1) (.Step p2 st2 e2) e') (.Step p3 st3 e3) e) h →
      simplify (some
        (.And p (.And q (.Step p1 st1 e1) (.Step p2 st2 e2) e') (.Step p3 st3 e3) e)) h =
        some (some (.And h (.Step p1 st1 e1) (.Step p2 st2 e2) e'), h + 1)) ∧
    (∀ p q p1 p2 p3 st1 st2 st3 e e' e1 e2 e3 h,
      TensorPathStep.levelType st1 = some LevelType.Dense →
      TensorPathStep.levelType st2 = some LevelType.Dense →
      TensorPathStep.levelType st3 = some LevelType.Dense →
      MergeRuleNode.onHeap
        (.And p (.Step p1 st1 e1) (.And q (.Step p2 st2 e2) (.Step p3 st3 e3) e') e) h →
      simplify (some
        (.And p (.Step p1 st1 e1) (.And q (.Step p2 st2 e2) (.Step p3 st3 e3) e') e)) h =
        some (some (.And h (.Step p2 st2 e2) (.Step p3 st3 e3) e'), h + 1)) := by
  refine ⟨?_, ?_, ?_⟩
  · intro r h hwf hl
    obtain ⟨r1, h1, hr⟩ := simplifyStructural_total r hl h
    exact ⟨r1, h1, by simp [simplify_eq_structural r h hwf, hr],
      simplifyStructural_result_mem r.nodes r (fun _ hx => hx) h r1 h1 hr,
      fun hno => ⟨r1.stepLeaves, MergeRule.getSteps_some r1,
        simplifyStructural_shape_steps r r1 h h1 hr hno⟩⟩
  · intro p q p1 p2 p3 st1 st2 st3 e e' e1 e2 e3 h d1 d2 d3 hwf
    rw [simplify_eq_structural _ h hwf]
    simp [simplifyStructural, MergeRuleNode.isDenseStep, d1, d2, d3]
  · intro p q p1 p2 p3 st1 st2 st3 e e' e1 e2 e3 h d1 d2 d3 hwf
    rw [simplify_eq_structural _ h hwf]
    simp [simplifyStructural, MergeRuleNode.isDenseStep, d1, d2, d3]

theorem simplify_result_shape_witness :
    exAndAA_A.onHeap 5 ∧ exAndAA_A.levelsInRange ∧ exAndAA_A.hasOr = false ∧
    exAndA_AA.onHeap 5 ∧ exStepA.levelType = some LevelType.Dense ∧
    (∃ r1 h1, simplify (some exAndAA_A) 5 = some (some r1, h1) ∧
      ((∃ p st e, r1 = .Step p st e ∧ r1 ∈ exAndAA_A.nodes) ∨
        (∃ p a b e, r1 = .Or p a b e ∧ r1 ∈ exAndAA_A.nodes) ∨
        (∃ q d1 d2 e, r1 = .And q d1 d2 e ∧ d1.isDenseStep = true ∧ d2.isDenseStep = true ∧
          d1 ∈ exAndAA_A.nodes ∧ d2 ∈ exAndAA_A.nodes)) ∧
      (exAndAA_A.hasOr = false →
        ∃ steps, MergeRule.getSteps (some r1) = some steps ∧ steps.length ≤ 2)) ∧
    simplify (some exAndAA_A) 5 =
      some (some (.And 5 (.Step 0 exStepA exReadA) (.Step 1 exStepA exReadA) exSquare), 6) ∧
    simplify (some exAndA_AA) 5 =
      some (some (.And 5 (.Step 1 exStepA exReadA) (.Step 2 exStepA exReadA) exSquare), 6) :=
  ⟨by decide, by decide, by decide, by decide, by decide,
    simplify_result_shape.1 exAndAA_A 5 (by decide) (by decide),
    simplify_result_shape.2.1 4 2 0 1 3 exStepA exStepA exStepA (.Mul exSquare exReadA)
      exSquare exReadA exReadA exReadA 5 (by decide) (by decide) (by decide) (by decide),
    simplify_result_shape.2.2 4 3 0 1 2 exStepA exStepA exStepA (.Mul exReadA exSquare)
      exSquare exReadA exReadA exReadA 5 (by decide) (by decide) (by decide) (by decide)⟩

/-- C20: the simplifier only removes steps.  On a rule that is a graph of live
heap objects and whose visited steps all have a level, `simplify` returns a rule
that is defined, and the steps `getSteps` reads off it are a non-empty subsequence,
in the same order, of the steps `getSteps` reads off the rule. -/
theorem simplify_steps_sublist (r : MergeRuleNode) (h : Nat) (hwf : r.onHeap h)
    (hl : r.levelsInRange) :
    ∃ r1 h1, simplify (some r) h = some (some r1, h1) ∧
      ∃ xs ys, MergeRule.getSteps (some r1) = some xs ∧ MergeRule.getSteps (some r) = some ys ∧
        xs ≠ [] ∧ xs.Sublist ys := by
  obtain ⟨r1, h1, hr⟩ := simplifyStructural_total r hl h
  exact ⟨r1, h1, by simp [simplify_eq_structural r h hwf, hr], r1.stepLeaves, r.stepLeaves,
    MergeRule.getSteps_some r1, MergeRule.getSteps_some r, r1.stepLeaves_ne_nil,
    simplifyStructural_sublist r h r1 h1 hr⟩

theorem simplify_steps_sublist_witness :
    exAndAAB.onHeap 5 ∧ exAndAAB.levelsInRange ∧
    MergeRule.getSteps (some exAndAAB) = some [exStepA, exStepA, exStepB] ∧
    simplify (some exAndAAB) 5 = some (some (.Step 3 exStepB exReadB), 6) ∧
    ∃ r1 h1, simplify (some exAndAAB) 5 = some (some r1, h1) ∧
      ∃ xs ys, MergeRule.getSteps (some r1) = some xs ∧
        MergeRule.getSteps (some exAndAAB) = some ys ∧ xs ≠ [] ∧ xs.Sublist ys :=
  ⟨by decide, by decide, by decide, by decide,
    simplify_steps_sublist exAndAAB 5 (by decide) (by decide)⟩

end taco
